import Mathlib

/-!
Verification development for the MK64 record-progression script
(src/mk64_plot.py).  The script is embedded shallowly:

* Python floats are embedded as exact rationals (ℚ).  Every numeric claim
  checked here is about the exact arithmetic the source expresses; the
  concrete counterexample inputs are chosen so that the binary64 evaluation
  agrees exactly with the rational one.
* Python strings are embedded as Lean `String`s, with the string work done
  on the underlying `List Char` (`splitChars` models `str.split` with a
  one-character separator, `pyInt?` models `int(...)` on an optional sign
  followed by decimal digits, `natChars`/`pad2` model decimal formatting
  and the `{:02}` format spec).
* `pandas` column operations are embedded as list functions: `cummin`
  models `Series.cummin()`, `dfMask` models the boolean mask
  `df["Time_sec"] == df["Best_Time"]`, `ptsMask` models
  `df["Best_Time"].diff() != 0` (the first row's `NaN != 0` is `True`).
-/

/-- The digit character for a value `d < 10`, i.e. code point `48 + d`. -/
def digitChar (d : ℕ) : Char := Char.ofNat (48 + d)

/-- Decimal digits of a natural number, most significant first, driven by
explicit fuel so that the definition computes by `decide`.  With fuel
`> n` this is ordinary decimal notation, exactly what a Python f-string
prints for a non-negative int. -/
def natDigitsAux (fuel : ℕ) (n : ℕ) : List Char :=
  match fuel with
  | 0 => []
  | fuel' + 1 =>
    if n < 10 then [digitChar n]
    else natDigitsAux fuel' (n / 10) ++ [digitChar (n % 10)]

/-- Decimal representation of a natural number (fuel `n + 1` always
suffices because the recursion divides by 10). -/
def natChars (n : ℕ) : List Char := natDigitsAux (n + 1) n

/-- Decimal representation of an integer, as Python prints it: a minus
sign for negative values, plain digits otherwise.  Embeds the `{m}`
field of the f-string in seconds_to_mmsscc. -/
def intChars (v : ℤ) : List Char :=
  if v < 0 then '-' :: natChars (-v).toNat else natChars v.toNat

/-- Embeds the Python format spec `{v:02}`: zero-pad to total width 2,
the sign (when present) counting toward the width. -/
def pad2 (v : ℤ) : List Char :=
  if v < 0 then
    '-' :: (List.replicate (1 - (natChars (-v).toNat).length) '0' ++ natChars (-v).toNat)
  else
    List.replicate (2 - (natChars v.toNat).length) '0' ++ natChars v.toNat

/-- Truncation toward zero, Python's `int(...)` on a number. -/
def pyTrunc (q : ℚ) : ℤ := if q < 0 then -⌊-q⌋ else ⌊q⌋

/-- Python 3 `round(...)` to an integer: nearest integer, ties to the
even neighbour (banker's rounding). -/
def pyRound (q : ℚ) : ℤ :=
  if q - ⌊q⌋ < 1/2 then ⌊q⌋
  else if 1/2 < q - ⌊q⌋ then ⌊q⌋ + 1
  else if ⌊q⌋ % 2 = 0 then ⌊q⌋ else ⌊q⌋ + 1

/-- Python `round(val, 3)`: round to three decimal places (ties to even). -/
def pyRound3 (q : ℚ) : ℚ := (pyRound (q * 1000) : ℚ) / 1000

/-- The character list produced by seconds_to_mmsscc:
`m = int(sec // 60)`, `s = int(sec % 60)`,
`cc = int(round((sec - int(sec)) * 100))`, assembled as
`f"{m}:{s:02}.{cc:02}"`.  Python's float `//` floors and `%` returns a
value in `[0, 60)`, on which `int` truncation coincides with floor. -/
def formatTime (x : ℚ) : List Char :=
  intChars ⌊x / 60⌋ ++
    ':' :: (pad2 ⌊x - 60 * ⌊x / 60⌋⌋ ++ '.' :: pad2 (pyRound ((x - pyTrunc x) * 100)))

/-- `seconds_to_mmsscc` from the source: format a duration in seconds as
an `m:ss.cc` string. -/
def seconds_to_mmsscc (x : ℚ) : String := String.mk (formatTime x)

/-- The numeric value of a digit character, `none` on a non-digit. -/
def digitVal? (c : Char) : Option ℕ :=
  if '0' ≤ c ∧ c ≤ '9' then some (c.toNat - 48) else none

/-- Accumulating decimal parse of a digit list; `none` as soon as a
non-digit appears. -/
def parseDigitsAux (acc : ℕ) : List Char → Option ℕ
  | [] => some acc
  | c :: cs =>
    match digitVal? c with
    | some d => parseDigitsAux (10 * acc + d) cs
    | none => none

/-- Parse a non-empty all-digit character list to its value. -/
def parseDigits? (l : List Char) : Option ℕ :=
  if l.isEmpty then none else parseDigitsAux 0 l

/-- Embeds Python `int(str)` on the strings this program feeds it: an
optional single sign followed by one or more decimal digits.  (Python's
additional tolerance for surrounding whitespace and interior underscores
is not exercised by the program and not modelled.) -/
def pyInt? (l : List Char) : Option ℤ :=
  match l with
  | [] => none
  | c :: cs =>
    if c = '-' then (parseDigits? cs).map (fun n => -(n : ℤ))
    else if c = '+' then (parseDigits? cs).map (fun n => (n : ℤ))
    else (parseDigits? (c :: cs)).map (fun n => (n : ℤ))

/-- Embeds Python `str.split(sep)` for a one-character separator: split
at every occurrence, keeping empty pieces; the empty string yields one
empty piece. -/
def splitChars (sep : Char) : List Char → List (List Char)
  | [] => [[]]
  | c :: cs =>
    match splitChars sep cs with
    | [] => [[]]
    | h :: t => if c = sep then [] :: h :: t else (c :: h) :: t

/-- The body of mmsscc_to_seconds on the character list of its input:
`m, rest = t.split(":")` (exactly two pieces or a ValueError, embedded
as `none`), `s, cc = rest.split(".")`, then
`int(m)*60 + int(s) + int(cc)/100`. -/
def parseTime (l : List Char) : Option ℚ :=
  match splitChars ':' l with
  | [m, rest] =>
    match splitChars '.' rest with
    | [s, cc] =>
      match pyInt? m, pyInt? s, pyInt? cc with
      | some mv, some sv, some cv => some ((mv : ℚ) * 60 + (sv : ℚ) + (cv : ℚ) / 100)
      | _, _, _ => none
    | _ => none
  | _ => none

/-- `mmsscc_to_seconds` from the source: parse an `m:ss.cc` time string
to fractional seconds, `none` embedding the raised ValueError. -/
def mmsscc_to_seconds (t : String) : Option ℚ := parseTime t.toList

set_option maxRecDepth 4000

/-- One observation of a track series, after the `Date` column has been
parsed (`pd.to_datetime`) and the `Time` column converted to seconds
(line 65 of the source).  Calendar dates are embedded as naturals in an
order-faithful way. -/
structure Obs where
  date : ℕ
  player : String
  time : ℚ
deriving DecidableEq, Repr

/-- Cumulative minimum of a list after its first element, carrying the
minimum `b` seen so far. -/
def cumminAux (b : ℚ) : List ℚ → List ℚ
  | [] => []
  | t :: ts => min b t :: cumminAux (min b t) ts

/-- `Series.cummin()` from pandas: position `i` holds the minimum of the
first `i + 1` entries. -/
def cummin : List ℚ → List ℚ
  | [] => []
  | t :: ts => t :: cumminAux t ts

/-- The `Best_Time` column: cumulative minimum of the track series'
times (line 75 of the source). -/
def bestTimes (s : List Obs) : List ℚ := cummin (s.map Obs.time)

/-- The boolean mask `df["Time_sec"] == df["Best_Time"]` (line 78),
selecting the rows of `record_df`. -/
def dfMask (s : List Obs) : List Bool :=
  List.zipWith (fun o b => decide (o.time = b)) s (bestTimes s)

/-- The boolean mask `df["Best_Time"].diff() != 0` (line 108), selecting
the rows of `record_points`: the first row's diff is `NaN`, and
`NaN != 0` is `True`, so the first row is always selected. -/
def ptsMask (s : List Obs) : List Bool :=
  match bestTimes s with
  | [] => []
  | c :: cs => true :: List.zipWith (fun prev cur => decide (cur ≠ prev)) (c :: cs) cs

/-- Keep the entries of `l` at the positions where the mask is `true`
(boolean indexing of a DataFrame). -/
def maskFilter {α : Type} (l : List α) (m : List Bool) : List α :=
  ((l.zip m).filter (fun p => p.2)).map (fun p => p.1)

/-- `record_df` (line 78): the rows whose time equals the running best. -/
def record_df (s : List Obs) : List Obs := maskFilter s (dfMask s)

/-- `record_points` (line 108): the rows where the running best strictly
decreased, plus the first row. -/
def record_points (s : List Obs) : List Obs := maskFilter s (ptsMask s)

/-- `record_points` together with each row's `Best_Time` value, as used
by the chart markers and the table. -/
def recordPointsWithBest (s : List Obs) : List (Obs × ℚ) :=
  maskFilter (s.zip (bestTimes s)) (ptsMask s)

/-- The Luigi Raceway scenario of the spec: observations
[(01-01-24, A, 1:30.00), (01-03-24, B, 1:28.50), (01-05-24, A, 1:28.50),
(01-06-24, C, 1:25.00)], with dates embedded as day ordinals and times
already parsed (90, 88.5, 88.5, 85 seconds). -/
def luigi : List Obs :=
  [⟨1, "A", 90⟩, ⟨3, "B", 177/2⟩, ⟨5, "A", 177/2⟩, ⟨6, "C", 85⟩]

/-- Positions (`df.index.get_loc`) of the `true` entries of a mask,
counting from `k`. -/
def trueIdxsFrom (k : ℕ) : List Bool → List ℕ
  | [] => []
  | b :: m => if b then k :: trueIdxsFrom (k + 1) m else trueIdxsFrom (k + 1) m

/-- The integer positions of the `record_df` rows inside the track
DataFrame, i.e. the values `df.index.get_loc(row.name)` of lines
115 and 119. -/
def recordIdxs (s : List Obs) : List ℕ := trueIdxsFrom 0 (dfMask s)

/-- The `(start_idx, end_idx)` pairs of the segment loop (lines
112-123): each record position is paired with the next record position,
and the last with `len(df) - 1`. -/
def segBounds (n : ℕ) : List ℕ → List (ℕ × ℕ)
  | [] => []
  | [r] => [(r, n - 1)]
  | r :: r' :: rest => (r, r') :: segBounds n (r' :: rest)

/-- The display segments: the holder (`row["Player"]`, line 125)
together with the inclusive position range `start_idx..end_idx` of the
slice `df.iloc[start_idx:end_idx + 1]` (line 123). -/
def segments (s : List Obs) : List (String × ℕ × ℕ) :=
  ((record_df s).map Obs.player).zip (segBounds s.length (recordIdxs s))

/-- The positions covered by one segment: `start_idx..end_idx`
inclusive. -/
def segPositions (p : ℕ × ℕ) : List ℕ := List.range' p.1 (p.2 + 1 - p.1)

/-- All positions of the track series drawn by the segment traces, in
drawing order. -/
def concatPositions (s : List Obs) : List ℕ :=
  (segBounds s.length (recordIdxs s)).flatMap segPositions

/-- `table_df` (lines 176-177): the `record_points` rows (each carrying
its `Best_Time`) sorted by `Best_Time` ascending.  The subsequent
column formatting (lines 179-182) does not reorder rows, so the order
of this list is the row order of the rendered table.  pandas'
default sort is not stable, but the keys are pairwise distinct
(proved below), so every comparison sort produces this list. -/
def table_df (s : List Obs) : List (Obs × ℚ) :=
  (recordPointsWithBest s).insertionSort (fun a b => a.2 ≤ b.2)

/-- First-seen-order deduplication with an accumulator of already seen
values: `Series.unique()` from pandas. -/
def uniqueAux (seen : List String) : List String → List String
  | [] => []
  | x :: xs => if x ∈ seen then uniqueAux seen xs else x :: uniqueAux (x :: seen) xs

/-- `Series.unique()`: the distinct values of a list in first-seen
order. -/
def uniqueList (l : List String) : List String := uniqueAux [] l

/-- `df["Player"].unique()` for a track series. -/
def uniquePlayers (s : List Obs) : List String := uniqueList (s.map Obs.player)

/-- Modelled from the spec: `px.colors.qualitative.Dark24` (line 103), a
fixed palette of 24 pairwise-distinct colour strings from the plotting
library (not part of this repository).  The hex values are abstracted
to 24 distinct tokens; only the length and distinctness matter to the
program. -/
def palette : List String :=
  ["c00", "c01", "c02", "c03", "c04", "c05", "c06", "c07",
   "c08", "c09", "c10", "c11", "c12", "c13", "c14", "c15",
   "c16", "c17", "c18", "c19", "c20", "c21", "c22", "c23"]

/-- `color_map = dict(zip(df["Player"].unique(), palette))` (line 104):
`zip` truncates to the shorter input, so players beyond the 24th get no
entry.  The players are distinct, so association-list lookup agrees
with the Python dict. -/
def color_map (s : List Obs) : List (String × String) :=
  (uniquePlayers s).zip palette

/-- The segment traces of one chart: the loop of lines 112-144 looks up
`color_map[holder]` for every `record_df` row; a missing key raises
`KeyError`, embedded as `none`, and aborts before the figure is
written. -/
def segTraces (s : List Obs) : Option (List (String × String)) :=
  (record_df s).mapM (fun o => ((color_map s).lookup o.player).map (fun c => (o.player, c)))

/-- Rendering one track's figure: `none` when the per-track loop body
raises (empty input cannot occur from the orchestration; a missing
colour key can).  On success the artifact carries the segment traces,
the marker rows and the table rows. -/
def renderTrack (s : List Obs) :
    Option (List (String × String) × List (Obs × ℚ) × List (Obs × ℚ)) :=
  match s with
  | [] => none
  | _ :: _ => (segTraces s).map (fun tr => (tr, recordPointsWithBest s, table_df s))

/-- One raw spreadsheet row: {Date, Player, Track, Time}, the `Time`
still a string.  Dates are embedded as order-faithful naturals (the
script parses them with `pd.to_datetime` only to sort and to format
them back). -/
structure RawRow where
  date : ℕ
  player : String
  track : String
  time : String
deriving DecidableEq, Repr

/-- `safe_name` (line 289): lowercase the track name and replace spaces
by underscores. -/
def slug (t : String) : String := (t.toLower).replace (" ") ("_")

/-- The track series for one track (line 72): filter the parsed rows to
the track, sort by date ascending.  pandas' default `sort_values` is
not stable; insertion sort coincides with it whenever the dates are
distinct. -/
def seriesFor (parsed : List (RawRow × ℚ)) (tr : String) : List Obs :=
  ((parsed.filter (fun p => p.1.track = tr)).map
    (fun p => Obs.mk p.1.date p.1.player p.2)).insertionSort (fun a b => a.date ≤ b.date)

/-- The per-track loop (lines 70-291): render each track in first-seen
order and write `slug(track).html`; an exception aborts the whole
process, losing the later tracks (files already written persist). -/
def runTracks (parsed : List (RawRow × ℚ)) : List String → List String × Bool
  | [] => ([], true)
  | tr :: rest =>
    match renderTrack (seriesFor parsed tr) with
    | none => ([], false)
    | some _ =>
      match runTracks parsed rest with
      | (ws, ok) => (slug tr :: ws, ok)

/-- The whole batch run.  Line 65 (`data["Time"].apply(mmsscc_to_seconds)`)
parses every time string before any track is processed; a single
malformed string raises there, so the run aborts with no HTML artifact
written.  The result is the list of HTML files written (as slugs, in
order) and whether the process completed. -/
def runBatch (rows : List RawRow) : List String × Bool :=
  match rows.mapM (fun r => (mmsscc_to_seconds r.time).map (fun q => (r, q))) with
  | none => ([], false)
  | some parsed => runTracks parsed (uniqueList (rows.map RawRow.track))

/-- `choose_tick_step` (lines 210-220). -/
def choose_tick_step (span : ℚ) : ℚ :=
  if span ≤ 6/10 then 5/100
  else if span ≤ 15/10 then 1/10
  else if span ≤ 3 then 25/100
  else if span ≤ 6 then 5/10
  else 1

/-- `generate_ticks` (lines 222-229): start at `int(min_val/step)*step`
(truncation toward zero) and step by `step` while the value stays at or
below `max_val + 1e-6`, rounding each emitted value to 3 decimals.  The
while loop is embedded by its iteration count; a non-positive step
(which the call sites never produce, and under which the Python loop
would not terminate) yields the empty list. -/
def generate_ticks (min_val max_val step : ℚ) : List ℚ :=
  if 0 < step ∧ (pyTrunc (min_val / step) : ℚ) * step ≤ max_val + 1/1000000 then
    (List.range
        ⌊(max_val + 1/1000000 - (pyTrunc (min_val / step) : ℚ) * step) / step⌋.toNat.succ).map
      (fun k => pyRound3 ((pyTrunc (min_val / step) : ℚ) * step + k * step))
  else []

/-- Python `[::2]`: every other element, starting with the first. -/
def everyOther {α : Type} : List α → List α
  | [] => []
  | [a] => [a]
  | a :: _ :: rest => a :: everyOther rest

/-- The y-axis tick values before thinning (lines 231-248): range of
the `Best_Time` column padded by `max(0.2, 0.15 * (max - min))`, step
from `choose_tick_step` of the padded span. -/
def tickVals (ymin ymax : ℚ) : List ℚ :=
  generate_ticks (ymin - max (2/10) ((ymax - ymin) * 15/100))
    (ymax + max (2/10) ((ymax - ymin) * 15/100))
    (choose_tick_step ((ymax + max (2/10) ((ymax - ymin) * 15/100)) -
      (ymin - max (2/10) ((ymax - ymin) * 15/100))))

/-- The emitted y-axis tick values and labels (lines 248-255): label
every tick with its formatted duration, then keep every other entry of
both arrays when more than 12 ticks were generated. -/
def yAxisTicks (ymin ymax : ℚ) : List ℚ × List String :=
  let v := tickVals ymin ymax
  let lbl := v.map seconds_to_mmsscc
  if 12 < v.length then (everyOther v, everyOther lbl) else (v, lbl)

/-- A concrete track with 25 distinct players, each observation
strictly improving the record (times 1:59.00 down to 1:35.00). -/
def manyRows : List RawRow :=
  [⟨1, "P01", "Rainbow Road", "1:59.00"⟩, ⟨2, "P02", "Rainbow Road", "1:58.00"⟩,
   ⟨3, "P03", "Rainbow Road", "1:57.00"⟩, ⟨4, "P04", "Rainbow Road", "1:56.00"⟩,
   ⟨5, "P05", "Rainbow Road", "1:55.00"⟩, ⟨6, "P06", "Rainbow Road", "1:54.00"⟩,
   ⟨7, "P07", "Rainbow Road", "1:53.00"⟩, ⟨8, "P08", "Rainbow Road", "1:52.00"⟩,
   ⟨9, "P09", "Rainbow Road", "1:51.00"⟩, ⟨10, "P10", "Rainbow Road", "1:50.00"⟩,
   ⟨11, "P11", "Rainbow Road", "1:49.00"⟩, ⟨12, "P12", "Rainbow Road", "1:48.00"⟩,
   ⟨13, "P13", "Rainbow Road", "1:47.00"⟩, ⟨14, "P14", "Rainbow Road", "1:46.00"⟩,
   ⟨15, "P15", "Rainbow Road", "1:45.00"⟩, ⟨16, "P16", "Rainbow Road", "1:44.00"⟩,
   ⟨17, "P17", "Rainbow Road", "1:43.00"⟩, ⟨18, "P18", "Rainbow Road", "1:42.00"⟩,
   ⟨19, "P19", "Rainbow Road", "1:41.00"⟩, ⟨20, "P20", "Rainbow Road", "1:40.00"⟩,
   ⟨21, "P21", "Rainbow Road", "1:39.00"⟩, ⟨22, "P22", "Rainbow Road", "1:38.00"⟩,
   ⟨23, "P23", "Rainbow Road", "1:37.00"⟩, ⟨24, "P24", "Rainbow Road", "1:36.00"⟩,
   ⟨25, "P25", "Rainbow Road", "1:35.00"⟩]

/-- The track series obtained from manyRows (dates already ascending,
times in seconds). -/
def manyObs : List Obs :=
  [⟨1, "P01", 119⟩, ⟨2, "P02", 118⟩, ⟨3, "P03", 117⟩, ⟨4, "P04", 116⟩,
   ⟨5, "P05", 115⟩, ⟨6, "P06", 114⟩, ⟨7, "P07", 113⟩, ⟨8, "P08", 112⟩,
   ⟨9, "P09", 111⟩, ⟨10, "P10", 110⟩, ⟨11, "P11", 109⟩, ⟨12, "P12", 108⟩,
   ⟨13, "P13", 107⟩, ⟨14, "P14", 106⟩, ⟨15, "P15", 105⟩, ⟨16, "P16", 104⟩,
   ⟨17, "P17", 103⟩, ⟨18, "P18", 102⟩, ⟨19, "P19", 101⟩, ⟨20, "P20", 100⟩,
   ⟨21, "P21", 99⟩, ⟨22, "P22", 98⟩, ⟨23, "P23", 97⟩, ⟨24, "P24", 96⟩,
   ⟨25, "P25", 95⟩]

/-- Proof-side view of the rows of recordPointsWithBest after the first
one: carrying the running best `b`, keep exactly the rows that strictly
improve it (paired with the updated best). -/
def ptsAux (b : ℚ) : List Obs → List (Obs × ℚ)
  | [] => []
  | o :: os =>
    if o.time < b then (o, min b o.time) :: ptsAux (min b o.time) os
    else ptsAux (min b o.time) os

theorem digitChar_spec (d : ℕ) (hd : d < 10) :
    digitChar d ≠ ':' ∧ digitChar d ≠ '.' ∧ digitChar d ≠ '-' ∧ digitChar d ≠ '+' ∧
      digitVal? (digitChar d) = some d := by
  interval_cases d <;> refine ⟨by decide, by decide, by decide, by decide, by decide⟩

theorem natDigitsAux_eq (f₁ : ℕ) : ∀ (f₂ n : ℕ), n < f₁ → n < f₂ →
    natDigitsAux f₁ n = natDigitsAux f₂ n := by
  induction f₁ with
  | zero => intro f₂ n h₁ _; omega
  | succ f ih =>
    intro f₂ n h₁ h₂
    match f₂, h₂ with
    | g + 1, _ =>
      show natDigitsAux (f + 1) n = natDigitsAux (g + 1) n
      by_cases hn : n < 10
      · simp [natDigitsAux, hn]
      · have hd : n / 10 < n := Nat.div_lt_self (by omega) (by omega)
        simp only [natDigitsAux, if_neg hn]
        rw [ih g (n / 10) (by omega) (by omega)]

theorem natDigitsAux_digits (f : ℕ) : ∀ (n : ℕ), n < f →
    ∀ c ∈ natDigitsAux f n, ∃ d, d < 10 ∧ c = digitChar d := by
  induction f with
  | zero => intro n h; omega
  | succ f ih =>
    intro n h c hc
    by_cases hn : n < 10
    · simp only [natDigitsAux, if_pos hn, List.mem_singleton] at hc
      exact ⟨n, hn, hc⟩
    · have hd : n / 10 < n := Nat.div_lt_self (by omega) (by omega)
      simp only [natDigitsAux, if_neg hn, List.mem_append, List.mem_singleton] at hc
      rcases hc with hc | hc
      · exact ih (n / 10) (by omega) c hc
      · exact ⟨n % 10, Nat.mod_lt n (by omega), hc⟩

theorem natChars_digits (n : ℕ) : ∀ c ∈ natChars n, ∃ d, d < 10 ∧ c = digitChar d :=
  natDigitsAux_digits (n + 1) n (Nat.lt_succ_self n)

theorem natDigitsAux_ne_nil (f n : ℕ) (h : n < f) : natDigitsAux f n ≠ [] := by
  match f, h with
  | f + 1, _ =>
    by_cases hn : n < 10 <;> simp [natDigitsAux, hn]

theorem natChars_ne_nil (n : ℕ) : natChars n ≠ [] :=
  natDigitsAux_ne_nil (n + 1) n (Nat.lt_succ_self n)

theorem parseDigitsAux_append (l₁ : List Char) : ∀ (l₂ : List Char) (acc : ℕ),
    parseDigitsAux acc (l₁ ++ l₂) =
      match parseDigitsAux acc l₁ with
      | some v => parseDigitsAux v l₂
      | none => none := by
  induction l₁ with
  | nil => intro l₂ acc; rfl
  | cons c cs ih =>
    intro l₂ acc
    simp only [List.cons_append, parseDigitsAux]
    cases digitVal? c with
    | none => rfl
    | some d => exact ih l₂ (10 * acc + d)

theorem parseDigitsAux_natDigitsAux (f : ℕ) : ∀ (n acc : ℕ), n < f →
    parseDigitsAux acc (natDigitsAux f n) =
      some (acc * 10 ^ (natDigitsAux f n).length + n) := by
  induction f with
  | zero => intro n acc h; omega
  | succ f ih =>
    intro n acc h
    by_cases hn : n < 10
    · simp only [natDigitsAux, if_pos hn, parseDigitsAux, (digitChar_spec n hn).2.2.2.2,
        List.length_singleton]
      norm_num [Nat.mul_comm]
    · have hd : n / 10 < n := Nat.div_lt_self (by omega) (by omega)
      simp only [natDigitsAux, if_neg hn]
      rw [parseDigitsAux_append, ih (n / 10) acc (by omega)]
      have hm : n % 10 < 10 := Nat.mod_lt n (by omega)
      simp only [parseDigitsAux, (digitChar_spec (n % 10) hm).2.2.2.2,
        List.length_append, List.length_singleton]
      congr 1
      have h2 : 10 * (n / 10) + n % 10 = n := Nat.div_add_mod n 10
      calc 10 * (acc * 10 ^ (natDigitsAux f (n / 10)).length + n / 10) + n % 10
          = acc * 10 ^ ((natDigitsAux f (n / 10)).length + 1) + (10 * (n / 10) + n % 10) := by
            rw [pow_succ]; ring
        _ = acc * 10 ^ ((natDigitsAux f (n / 10)).length + 1) + n := by rw [h2]

theorem parseDigitsAux_natChars (n : ℕ) :
    parseDigitsAux 0 (natChars n) = some n := by
  rw [natChars, parseDigitsAux_natDigitsAux (n + 1) n 0 (Nat.lt_succ_self n)]
  simp

theorem parseDigits?_natChars (n : ℕ) : parseDigits? (natChars n) = some n := by
  rw [parseDigits?, if_neg (by simpa [List.isEmpty_iff] using natChars_ne_nil n)]
  exact parseDigitsAux_natChars n

theorem parseDigitsAux_replicate_zero (k : ℕ) : ∀ l : List Char,
    parseDigitsAux 0 (List.replicate k '0' ++ l) = parseDigitsAux 0 l := by
  induction k with
  | zero => intro l; rfl
  | succ k ih =>
    intro l
    have h0 : digitVal? '0' = some 0 := by decide
    simp only [List.replicate_succ, List.cons_append, parseDigitsAux, h0]
    simpa using ih l

theorem pad2_nonneg_eq (v : ℤ) (hv : 0 ≤ v) :
    pad2 v = List.replicate (2 - (natChars v.toNat).length) '0' ++ natChars v.toNat := by
  rw [pad2, if_neg (by omega)]

theorem pad2_digits (v : ℤ) (hv : 0 ≤ v) :
    ∀ c ∈ pad2 v, ∃ d, d < 10 ∧ c = digitChar d := by
  intro c hc
  rw [pad2_nonneg_eq v hv, List.mem_append] at hc
  rcases hc with hc | hc
  · rw [List.eq_of_mem_replicate hc]
    exact ⟨0, by omega, rfl⟩
  · exact natChars_digits v.toNat c hc

theorem pad2_ne_nil (v : ℤ) (hv : 0 ≤ v) : pad2 v ≠ [] := by
  rw [pad2_nonneg_eq v hv]
  intro h
  rcases List.append_eq_nil.mp h with ⟨-, h2⟩
  exact natChars_ne_nil v.toNat h2

theorem parseDigitsAux_pad2 (v : ℤ) (hv : 0 ≤ v) :
    parseDigitsAux 0 (pad2 v) = some v.toNat := by
  rw [pad2_nonneg_eq v hv, parseDigitsAux_replicate_zero, parseDigitsAux_natChars]

theorem pyInt?_digit_list (l : List Char) (hne : l ≠ [])
    (hd : ∀ c ∈ l, ∃ d, d < 10 ∧ c = digitChar d) (n : ℕ)
    (hp : parseDigitsAux 0 l = some n) : pyInt? l = some (n : ℤ) := by
  match l, hne with
  | c :: cs, _ =>
    obtain ⟨d, hd10, rfl⟩ := hd c (List.mem_cons_self c cs)
    rw [pyInt?, if_neg (digitChar_spec d hd10).2.2.1, if_neg (digitChar_spec d hd10).2.2.2.1,
      parseDigits?, if_neg (by simp), hp]
    rfl

theorem pyInt?_pad2 (v : ℤ) (hv : 0 ≤ v) : pyInt? (pad2 v) = some v := by
  rw [pyInt?_digit_list (pad2 v) (pad2_ne_nil v hv) (pad2_digits v hv) v.toNat
    (parseDigitsAux_pad2 v hv)]
  simp [Int.toNat_of_nonneg hv]

theorem pyInt?_natChars (n : ℕ) : pyInt? (natChars n) = some (n : ℤ) :=
  pyInt?_digit_list (natChars n) (natChars_ne_nil n) (natChars_digits n) n
    (parseDigitsAux_natChars n)

theorem splitChars_ne_nil (sep : Char) (l : List Char) : splitChars sep l ≠ [] := by
  cases l with
  | nil => simp [splitChars]
  | cons c cs =>
    rw [splitChars]
    cases splitChars sep cs with
    | nil => simp
    | cons h t => by_cases hc : c = sep <;> simp [hc]

theorem splitChars_not_mem (sep : Char) (l : List Char) (h : sep ∉ l) :
    splitChars sep l = [l] := by
  induction l with
  | nil => rfl
  | cons c cs ih =>
    have hcs : sep ∉ cs := fun hx => h (List.mem_cons_of_mem c hx)
    have hc : c ≠ sep := fun hx => h (hx ▸ List.mem_cons_self c cs)
    rw [splitChars, ih hcs]
    simp [hc]

theorem splitChars_append (sep : Char) (a : List Char) (h : sep ∉ a) : ∀ b : List Char,
    splitChars sep (a ++ sep :: b) = a :: splitChars sep b := by
  induction a with
  | nil =>
    intro b
    rw [List.nil_append, splitChars]
    cases hs : splitChars sep b with
    | nil => exact absurd hs (splitChars_ne_nil sep b)
    | cons h t => simp
  | cons c cs ih =>
    intro b
    have hcs : sep ∉ cs := fun hx => h (List.mem_cons_of_mem c hx)
    have hc : c ≠ sep := fun hx => h (hx ▸ List.mem_cons_self c cs)
    rw [List.cons_append, splitChars, ih hcs b]
    simp [hc]

theorem splitChars_length_count (sep : Char) (l : List Char) :
    (splitChars sep l).length = l.count sep + 1 := by
  induction l with
  | nil => rfl
  | cons c cs ih =>
    rw [splitChars]
    cases hs : splitChars sep cs with
    | nil => exact absurd hs (splitChars_ne_nil sep cs)
    | cons h t =>
      rw [hs] at ih
      simp only [List.length_cons] at ih
      dsimp only
      by_cases hc : c = sep
      · rw [if_pos hc]
        have hcount : (c :: cs).count sep = cs.count sep + 1 := by
          simp [List.count_cons, hc]
        rw [hcount]
        simp only [List.length_cons]
        omega
      · rw [if_neg hc]
        have hcount : (c :: cs).count sep = cs.count sep := by
          simp [List.count_cons, hc]
        rw [hcount]
        simp only [List.length_cons]
        omega

theorem pyRound_bounds (q : ℚ) : ⌊q⌋ ≤ pyRound q ∧ pyRound q ≤ ⌊q⌋ + 1 := by
  unfold pyRound
  split_ifs <;> omega

theorem pyRound_close (q : ℚ) : |(pyRound q : ℚ) - q| ≤ 1/2 := by
  have h1 : (⌊q⌋ : ℚ) ≤ q := Int.floor_le q
  have h2 : q < ⌊q⌋ + 1 := Int.lt_floor_add_one q
  unfold pyRound
  split_ifs with hlt hgt hev <;>
    · rw [abs_le]
      push_cast
      constructor <;> linarith

theorem pyRound_tie_even (q : ℚ) (h : q - ⌊q⌋ = 1/2) : pyRound q % 2 = 0 := by
  unfold pyRound
  split_ifs with h1 h2 hev
  · rw [h] at h1; norm_num at h1
  · rw [h] at h2; norm_num at h2
  · exact hev
  · omega

theorem pyTrunc_nonneg (q : ℚ) (h : 0 ≤ q) : pyTrunc q = ⌊q⌋ := by
  rw [pyTrunc, if_neg (not_lt.mpr h)]

theorem formatTime_parts (x : ℚ) (hx : 0 ≤ x) :
    formatTime x =
      natChars ⌊x / 60⌋.toNat ++
        ':' :: (pad2 (⌊x⌋ - 60 * ⌊x / 60⌋) ++ '.' :: pad2 (pyRound ((x - ⌊x⌋) * 100))) ∧
      0 ≤ ⌊x / 60⌋ ∧
      0 ≤ ⌊x⌋ - 60 * ⌊x / 60⌋ ∧ ⌊x⌋ - 60 * ⌊x / 60⌋ ≤ 59 ∧
      0 ≤ pyRound ((x - ⌊x⌋) * 100) ∧ pyRound ((x - ⌊x⌋) * 100) ≤ 100 := by
  have hm : 0 ≤ ⌊x / 60⌋ := Int.floor_nonneg.mpr (by positivity)
  have hfl : (⌊x / 60⌋ : ℚ) ≤ x / 60 := Int.floor_le (x / 60)
  have hfu : x / 60 < ⌊x / 60⌋ + 1 := Int.lt_floor_add_one (x / 60)
  have hxl : (⌊x⌋ : ℚ) ≤ x := Int.floor_le x
  have hxu : x < ⌊x⌋ + 1 := Int.lt_floor_add_one x
  have hcast : x - 60 * (⌊x / 60⌋ : ℚ) = x - ((60 * ⌊x / 60⌋ : ℤ) : ℚ) := by push_cast; ring
  have hs_eq : ⌊x - 60 * (⌊x / 60⌋ : ℚ)⌋ = ⌊x⌋ - 60 * ⌊x / 60⌋ := by
    rw [hcast, Int.floor_sub_int]
  have hs_lo : 0 ≤ ⌊x⌋ - 60 * ⌊x / 60⌋ := by
    have : (60 * ⌊x / 60⌋ : ℤ) ≤ ⌊x⌋ := by
      rw [Int.le_floor]
      push_cast
      linarith
    omega
  have hs_hi : ⌊x⌋ - 60 * ⌊x / 60⌋ ≤ 59 := by
    have : ⌊x⌋ < 60 * ⌊x / 60⌋ + 60 := by
      rw [Int.floor_lt]
      push_cast
      linarith
    omega
  have hfrac_lo : (0 : ℚ) ≤ (x - ⌊x⌋) * 100 := by nlinarith
  have hfrac_hi : (x - ⌊x⌋) * 100 < 100 := by nlinarith
  have hcc_lo : 0 ≤ pyRound ((x - ⌊x⌋) * 100) := by
    have := (pyRound_bounds ((x - ⌊x⌋) * 100)).1
    have h0 : 0 ≤ ⌊(x - ⌊x⌋) * 100⌋ := Int.floor_nonneg.mpr hfrac_lo
    omega
  have hcc_hi : pyRound ((x - ⌊x⌋) * 100) ≤ 100 := by
    have := (pyRound_bounds ((x - ⌊x⌋) * 100)).2
    have h99 : ⌊(x - ⌊x⌋) * 100⌋ < 100 := Int.floor_lt.mpr (by push_cast; linarith)
    omega
  refine ⟨?_, hm, hs_lo, hs_hi, hcc_lo, hcc_hi⟩
  rw [formatTime, intChars, if_neg (not_lt.mpr hm), pyTrunc_nonneg x hx, hs_eq]

theorem parse_format_roundtrip (x : ℚ) (hx : 0 ≤ x) :
    mmsscc_to_seconds (seconds_to_mmsscc x) =
      some ((⌊x⌋ : ℚ) + (pyRound ((x - ⌊x⌋) * 100) : ℚ) / 100) := by
  obtain ⟨hfmt, hm, hs_lo, hs_hi, hcc_lo, hcc_hi⟩ := formatTime_parts x hx
  set s : ℤ := ⌊x⌋ - 60 * ⌊x / 60⌋ with hs_def
  set cc : ℤ := pyRound ((x - ⌊x⌋) * 100) with hcc_def
  have hAdig : ∀ c ∈ natChars ⌊x / 60⌋.toNat, ∃ d, d < 10 ∧ c = digitChar d :=
    natChars_digits ⌊x / 60⌋.toNat
  have hA : ':' ∉ natChars ⌊x / 60⌋.toNat := by
    intro hmem
    obtain ⟨d, hd, he⟩ := hAdig ':' hmem
    exact (digitChar_spec d hd).1 he.symm
  have hB : ':' ∉ pad2 s ++ '.' :: pad2 cc := by
    intro hmem
    rcases List.mem_append.mp hmem with hmem | hmem
    · obtain ⟨d, hd, he⟩ := pad2_digits s hs_lo ':' hmem
      exact (digitChar_spec d hd).1 he.symm
    · rcases List.mem_cons.mp hmem with he | hmem
      · exact absurd he (by decide)
      · obtain ⟨d, hd, he⟩ := pad2_digits cc hcc_lo ':' hmem
        exact (digitChar_spec d hd).1 he.symm
  have hS : '.' ∉ pad2 s := by
    intro hmem
    obtain ⟨d, hd, he⟩ := pad2_digits s hs_lo '.' hmem
    exact (digitChar_spec d hd).2.1 he.symm
  have hC : '.' ∉ pad2 cc := by
    intro hmem
    obtain ⟨d, hd, he⟩ := pad2_digits cc hcc_lo '.' hmem
    exact (digitChar_spec d hd).2.1 he.symm
  have hlist : (seconds_to_mmsscc x).toList = formatTime x := rfl
  rw [mmsscc_to_seconds, hlist, hfmt, parseTime,
    splitChars_append ':' (natChars ⌊x / 60⌋.toNat) hA,
    splitChars_not_mem ':' _ hB]
  dsimp only
  rw [splitChars_append '.' (pad2 s) hS, splitChars_not_mem '.' _ hC]
  dsimp only
  rw [pyInt?_natChars ⌊x / 60⌋.toNat, pyInt?_pad2 s hs_lo, pyInt?_pad2 cc hcc_lo]
  have hmv : ((⌊x / 60⌋.toNat : ℤ) : ℚ) = (⌊x / 60⌋ : ℚ) := by
    rw [Int.toNat_of_nonneg hm]
  dsimp only
  congr 1
  rw [hmv]
  have : ((s : ℚ)) = (⌊x⌋ : ℚ) - 60 * (⌊x / 60⌋ : ℚ) := by
    rw [hs_def]; push_cast; ring
  rw [this]
  ring

theorem natChars_small (n : ℕ) (h : n < 10) : natChars n = [digitChar n] := by
  rw [show natChars n =
    (if n < 10 then [digitChar n] else natDigitsAux n (n / 10) ++ [digitChar (n % 10)]) from rfl]
  rw [if_pos h]

theorem natChars_ge10 (n : ℕ) (h : 10 ≤ n) :
    natChars n = natChars (n / 10) ++ [digitChar (n % 10)] := by
  rw [show natChars n =
    (if n < 10 then [digitChar n] else natDigitsAux n (n / 10) ++ [digitChar (n % 10)]) from rfl]
  rw [if_neg (by omega), natChars,
    natDigitsAux_eq n (n / 10 + 1) (n / 10) (by omega) (Nat.lt_succ_self _)]

theorem natChars_length_le_two (n : ℕ) (h : n ≤ 99) : (natChars n).length ≤ 2 := by
  by_cases h10 : n < 10
  · rw [natChars_small n h10]; simp
  · rw [natChars_ge10 n (by omega), natChars_small (n / 10) (by omega)]; simp

theorem pad2_length_le99 (v : ℤ) (h0 : 0 ≤ v) (h99 : v ≤ 99) : (pad2 v).length = 2 := by
  rw [pad2_nonneg_eq v h0, List.length_append, List.length_replicate]
  have h1 : (natChars v.toNat).length ≤ 2 := natChars_length_le_two v.toNat (by omega)
  have h2 : natChars v.toNat ≠ [] := natChars_ne_nil v.toNat
  have h3 : 1 ≤ (natChars v.toNat).length := by
    cases hn : natChars v.toNat with
    | nil => exact absurd hn h2
    | cons a l => simp
  omega

theorem pad2_length_100 : (pad2 100).length = 3 := by decide

/-- C2: for every duration value `x` in `[0, 6000)` seconds,
`parse_duration(format_duration(x))` — i.e.
`mmsscc_to_seconds(seconds_to_mmsscc(x))` — is within 0.005 seconds of
`x`; and for every non-negative `x` it recovers `x` within 1
centisecond. -/
theorem c2_roundtrip (x : ℚ) (hx : 0 ≤ x) :
    ∃ v, mmsscc_to_seconds (seconds_to_mmsscc x) = some v ∧
      |v - x| ≤ 1/100 ∧ (x < 6000 → |v - x| ≤ 5/1000) := by
  refine ⟨_, parse_format_roundtrip x hx, ?_, ?_⟩ <;>
  [skip; intro h6000] <;>
  · have hclose := pyRound_close ((x - ⌊x⌋) * 100)
    have heq : (⌊x⌋ : ℚ) + (pyRound ((x - ⌊x⌋) * 100) : ℚ) / 100 - x =
        ((pyRound ((x - ⌊x⌋) * 100) : ℚ) - (x - ⌊x⌋) * 100) / 100 := by ring
    rw [heq, abs_div, abs_of_pos (show (0:ℚ) < 100 by norm_num)]
    linarith

/-- Witness for C2 at the concrete input `x = 0`. -/
theorem c2_roundtrip_witness :
    0 ≤ (0 : ℚ) ∧
      ∃ v, mmsscc_to_seconds (seconds_to_mmsscc 0) = some v ∧
        |v - 0| ≤ 1/100 ∧ ((0 : ℚ) < 6000 → |v - 0| ≤ 5/1000) :=
  ⟨le_refl 0, c2_roundtrip 0 (le_refl 0)⟩

/-- C5 (amended): for non-negative `x`, seconds_to_mmsscc floors `x` to
whole seconds for the `M:SS` part and rounds the fractional remainder
to the nearest centisecond, but ties round half to EVEN (Python 3
banker's rounding), not half away from zero; the seconds field is
zero-padded to exactly 2 digits while the centiseconds field is
zero-padded to a minimum width of 2 and becomes the 3-character `100`
when the remainder rounds up to a full second. -/
theorem c5_format_amended (x : ℚ) (hx : 0 ≤ x) :
    ∃ m s cc : ℤ,
      0 ≤ m ∧ 0 ≤ s ∧ s ≤ 59 ∧ 0 ≤ cc ∧ cc ≤ 100 ∧
      seconds_to_mmsscc x = String.mk (natChars m.toNat ++ ':' :: (pad2 s ++ '.' :: pad2 cc)) ∧
      60 * m + s = ⌊x⌋ ∧
      |(cc : ℚ) - (x - ⌊x⌋) * 100| ≤ 1/2 ∧
      ((x - ⌊x⌋) * 100 - ⌊(x - ⌊x⌋) * 100⌋ = 1/2 → cc % 2 = 0) ∧
      (pad2 s).length = 2 ∧
      (cc ≤ 99 → (pad2 cc).length = 2) ∧ (cc = 100 → (pad2 cc).length = 3) := by
  obtain ⟨hfmt, hm, hs_lo, hs_hi, hcc_lo, hcc_hi⟩ := formatTime_parts x hx
  refine ⟨⌊x / 60⌋, ⌊x⌋ - 60 * ⌊x / 60⌋, pyRound ((x - ⌊x⌋) * 100),
    hm, hs_lo, hs_hi, hcc_lo, hcc_hi, ?_, by ring, pyRound_close _, pyRound_tie_even _,
    pad2_length_le99 _ hs_lo (by omega), fun h99 => pad2_length_le99 _ hcc_lo h99,
    fun h100 => h100 ▸ pad2_length_100⟩
  rw [seconds_to_mmsscc, hfmt]

/-- Witness for C5 (amended) at the concrete input `x = 0`. -/
theorem c5_format_amended_witness :
    0 ≤ (0 : ℚ) ∧
      ∃ m s cc : ℤ,
        0 ≤ m ∧ 0 ≤ s ∧ s ≤ 59 ∧ 0 ≤ cc ∧ cc ≤ 100 ∧
        seconds_to_mmsscc 0 = String.mk (natChars m.toNat ++ ':' :: (pad2 s ++ '.' :: pad2 cc)) ∧
        60 * m + s = ⌊(0:ℚ)⌋ ∧
        |(cc : ℚ) - ((0:ℚ) - ⌊(0:ℚ)⌋) * 100| ≤ 1/2 ∧
        (((0:ℚ) - ⌊(0:ℚ)⌋) * 100 - ⌊((0:ℚ) - ⌊(0:ℚ)⌋) * 100⌋ = 1/2 → cc % 2 = 0) ∧
        (pad2 s).length = 2 ∧
        (cc ≤ 99 → (pad2 cc).length = 2) ∧ (cc = 100 → (pad2 cc).length = 3) :=
  ⟨le_refl 0, c5_format_amended 0 (le_refl 0)⟩

/-- C5 (counterexample): at `x = 0.125` (exactly representable in
binary64, so the Python run computes the same values) the fractional
remainder times 100 is the exact tie `12.5`, and the code emits
`"0:00.12"` — ties round half to even, not half away from zero, which
would give `"0:00.13"`.  And at `x = 0.996` the centiseconds field is
the 3-character `100`, not a field of exactly 2 digits. -/
theorem c5_format_counterexample :
    seconds_to_mmsscc (1/8) = "0:00.12" ∧
    seconds_to_mmsscc (1/8) ≠ "0:00.13" ∧
    ((1/8 : ℚ) - ⌊(1/8 : ℚ)⌋) * 100 - ⌊((1/8 : ℚ) - ⌊(1/8 : ℚ)⌋) * 100⌋ = 1/2 ∧
    seconds_to_mmsscc (249/250) = "0:00.100" := by
  refine ⟨?_, ?_, ?_, ?_⟩ <;> with_unfolding_all decide

theorem parseTime_none_iff (l : List Char) :
    parseTime l = none ↔
      ¬ ∃ mf rest sf ccf, splitChars ':' l = [mf, rest] ∧ splitChars '.' rest = [sf, ccf] ∧
        (pyInt? mf).isSome ∧ (pyInt? sf).isSome ∧ (pyInt? ccf).isSome := by
  rcases h1 : splitChars ':' l with _ | ⟨a, _ | ⟨b, _ | ⟨c1, r⟩⟩⟩
  · exact absurd h1 (splitChars_ne_nil ':' l)
  · simp [parseTime, h1]
  · rcases h2 : splitChars '.' b with _ | ⟨c, _ | ⟨d, _ | ⟨e, r2⟩⟩⟩
    · exact absurd h2 (splitChars_ne_nil '.' b)
    · simp [parseTime, h1, h2]
    · rcases hm : pyInt? a with _ | mv <;> rcases hs : pyInt? c with _ | sv <;>
        rcases hc : pyInt? d with _ | cv <;>
        simp [parseTime, h1, h2, hm, hs, hc]
    · simp [parseTime, h1, h2]
  · simp [parseTime, h1]

/-- C10: mmsscc_to_seconds does not enforce the `M:SS.CC` field widths:
`"1:30.5"` (one-digit centiseconds) parses to `90.05`, not `90.5`, and
a seconds field of 60 or more (`"1:75.00"`) parses to a value too; it
fails exactly when the `":"` or `"."` separator is missing or
duplicated (a split into other than exactly two pieces, i.e. a
separator count different from 1) or one of the three fields is not an
integer literal. -/
theorem c10_parse_characterization :
    mmsscc_to_seconds ("1:30.5") = some (1801/20) ∧
    (1801/20 : ℚ) = 90 + 5/100 ∧
    (1801/20 : ℚ) ≠ 90 + 5/10 ∧
    mmsscc_to_seconds ("1:75.00") = some 135 ∧
    (∀ t : String, mmsscc_to_seconds t = none ↔
      ¬ ∃ mf rest sf ccf, splitChars ':' t.toList = [mf, rest] ∧
          splitChars '.' rest = [sf, ccf] ∧
          (pyInt? mf).isSome ∧ (pyInt? sf).isSome ∧ (pyInt? ccf).isSome) ∧
    (∀ l : List Char, (splitChars ':' l).length = 2 ↔ l.count ':' = 1) := by
  refine ⟨by with_unfolding_all decide, by with_unfolding_all decide,
    by with_unfolding_all decide, by with_unfolding_all decide,
    fun t => parseTime_none_iff t.toList, fun l => ?_⟩
  rw [splitChars_length_count]
  omega

theorem cumminAux_chain (l : List ℚ) : ∀ b : ℚ,
    List.Chain' (fun a c => c ≤ a) (b :: cumminAux b l) := by
  induction l with
  | nil => intro b; simp [cumminAux]
  | cons t ts ih =>
    intro b
    rw [cumminAux]
    exact List.chain'_cons.mpr ⟨min_le_left b t, ih (min b t)⟩

/-- C6: for every track series, the running-best sequence (the
cumulative minimum `Best_Time` column) is non-increasing: each element
is less than or equal to the previous one. -/
theorem c6_running_best_monotone (s : List Obs) :
    List.Chain' (fun a c => c ≤ a) (bestTimes s) := by
  rw [bestTimes]
  cases s.map Obs.time with
  | nil => simp [cummin]
  | cons t ts =>
    rw [cummin]
    exact cumminAux_chain ts t

theorem cumminAux_length (l : List ℚ) : ∀ b, (cumminAux b l).length = l.length := by
  induction l with
  | nil => intro b; rfl
  | cons t ts ih => intro b; simp [cumminAux, ih]

theorem cummin_length (l : List ℚ) : (cummin l).length = l.length := by
  cases l with
  | nil => rfl
  | cons t ts => simp [cummin, cumminAux_length]

theorem bestTimes_length (s : List Obs) : (bestTimes s).length = s.length := by
  rw [bestTimes, cummin_length, List.length_map]

theorem cumminAux_getElem? (l : List ℚ) : ∀ (b : ℚ) (i : ℕ) (q : ℚ),
    (cumminAux b l)[i]? = some q →
      q ≤ b ∧ (∀ j t, j ≤ i → l[j]? = some t → q ≤ t) ∧
        (q = b ∨ ∃ j, j ≤ i ∧ l[j]? = some q) := by
  induction l with
  | nil => intro b i q h; simp [cumminAux] at h
  | cons t ts ih =>
    intro b i q h
    rw [cumminAux] at h
    cases i with
    | zero =>
      rw [List.getElem?_cons_zero] at h
      have hq : q = min b t := by injection h with h; exact h.symm
      subst hq
      refine ⟨min_le_left b t, ?_, ?_⟩
      · intro j u hj hu
        interval_cases j
        rw [List.getElem?_cons_zero] at hu
        rw [← Option.some.inj hu]
        exact min_le_right b t
      · rcases le_total b t with hbt | htb
        · exact Or.inl (min_eq_left hbt)
        · exact Or.inr ⟨0, le_refl 0, by rw [List.getElem?_cons_zero, min_eq_right htb]⟩
    | succ i =>
      rw [List.getElem?_cons_succ] at h
      obtain ⟨h1, h2, h3⟩ := ih (min b t) i q h
      refine ⟨le_trans h1 (min_le_left b t), ?_, ?_⟩
      · intro j u hj hu
        cases j with
        | zero =>
          rw [List.getElem?_cons_zero] at hu
          rw [← Option.some.inj hu]
          exact le_trans h1 (min_le_right b t)
        | succ j =>
          rw [List.getElem?_cons_succ] at hu
          exact h2 j u (by omega) hu
      · rcases h3 with h3 | ⟨j, hj, hjt⟩
        · rcases le_total b t with hbt | htb
          · rw [min_eq_left hbt] at h3
            exact Or.inl h3
          · rw [min_eq_right htb] at h3
            exact Or.inr ⟨0, by omega, by rw [List.getElem?_cons_zero, h3]⟩
        · exact Or.inr ⟨j + 1, by omega, by rw [List.getElem?_cons_succ]; exact hjt⟩

theorem cummin_getElem? (l : List ℚ) (i : ℕ) (q : ℚ) (h : (cummin l)[i]? = some q) :
    (∀ j t, j ≤ i → l[j]? = some t → q ≤ t) ∧ (∃ j, j ≤ i ∧ l[j]? = some q) := by
  cases l with
  | nil => simp [cummin] at h
  | cons t ts =>
    rw [cummin] at h
    cases i with
    | zero =>
      rw [List.getElem?_cons_zero] at h
      have hq : q = t := by injection h with h; exact h.symm
      subst hq
      refine ⟨?_, 0, le_refl 0, List.getElem?_cons_zero⟩
      intro j u hj hu
      interval_cases j
      rw [List.getElem?_cons_zero] at hu
      have : u = q := by injection hu with h; exact h.symm
      rw [this]
    | succ i =>
      rw [List.getElem?_cons_succ] at h
      obtain ⟨h1, h2, h3⟩ := cumminAux_getElem? ts t i q h
      refine ⟨?_, ?_⟩
      · intro j u hj hu
        cases j with
        | zero =>
          rw [List.getElem?_cons_zero] at hu
          have : u = t := by injection hu with h; exact h.symm
          subst this
          exact h1
        | succ j =>
          rw [List.getElem?_cons_succ] at hu
          exact h2 j u (by omega) hu
      · rcases h3 with h3 | ⟨j, hj, hjt⟩
        · exact ⟨0, by omega, by rw [List.getElem?_cons_zero, h3]⟩
        · exact ⟨j + 1, by omega, by rw [List.getElem?_cons_succ]; exact hjt⟩

theorem cumminAux_succ (l : List ℚ) : ∀ (b : ℚ) (i : ℕ) (c t : ℚ),
    (cumminAux b l)[i]? = some c → l[i + 1]? = some t →
      (cumminAux b l)[i + 1]? = some (min c t) := by
  induction l with
  | nil => intro b i c t hc ht; simp at ht
  | cons t0 ts ih =>
    intro b i c t hc ht
    rw [cumminAux] at hc ⊢
    cases i with
    | zero =>
      rw [List.getElem?_cons_zero] at hc
      have : c = min b t0 := by injection hc with h; exact h.symm
      subst this
      rw [List.getElem?_cons_succ] at ht ⊢
      cases ts with
      | nil => simp at ht
      | cons t1 ts' =>
        rw [List.getElem?_cons_zero] at ht
        rw [cumminAux, List.getElem?_cons_zero, Option.some.inj ht]
    | succ i =>
      rw [List.getElem?_cons_succ] at hc ht ⊢
      exact ih (min b t0) i c t hc ht

theorem cummin_succ (l : List ℚ) (i : ℕ) (c t : ℚ) (hc : (cummin l)[i]? = some c)
    (ht : l[i + 1]? = some t) : (cummin l)[i + 1]? = some (min c t) := by
  cases l with
  | nil => simp [cummin] at hc
  | cons t0 ts =>
    rw [cummin] at hc ⊢
    cases i with
    | zero =>
      rw [List.getElem?_cons_zero] at hc
      have : c = t0 := by injection hc with h; exact h.symm
      subst this
      rw [List.getElem?_cons_succ] at ht ⊢
      cases ts with
      | nil => simp at ht
      | cons t1 ts' =>
        rw [List.getElem?_cons_zero] at ht
        rw [cumminAux, List.getElem?_cons_zero, Option.some.inj ht]
    | succ i =>
      rw [List.getElem?_cons_succ] at hc ht ⊢
      exact cumminAux_succ ts t0 i c t hc ht

theorem getElem?_map_time (s : List Obs) (j : ℕ) (o : Obs) (h : s[j]? = some o) :
    (s.map Obs.time)[j]? = some o.time := by
  rw [List.getElem?_map, h]
  rfl

theorem bestTimes_cons (o0 : Obs) (os : List Obs) :
    bestTimes (o0 :: os) = o0.time :: cumminAux o0.time (os.map Obs.time) := rfl

theorem ptsMask_cons (o0 : Obs) (os : List Obs) :
    ptsMask (o0 :: os) =
      true :: List.zipWith (fun prev cur => decide (cur ≠ prev))
        (o0.time :: cumminAux o0.time (os.map Obs.time))
        (cumminAux o0.time (os.map Obs.time)) := rfl

theorem dfMask_true_iff (s : List Obs) (i : ℕ) (o : Obs) (h : s[i]? = some o) :
    ((dfMask s)[i]? = some true ↔ ∀ j o', j < i → s[j]? = some o' → o.time ≤ o'.time) := by
  have hlt : i < s.length := (List.getElem?_eq_some_iff.mp h).1
  have hbl : i < (bestTimes s).length := by rw [bestTimes_length]; exact hlt
  obtain ⟨c, hc⟩ : ∃ c, (bestTimes s)[i]? = some c :=
    ⟨(bestTimes s)[i], List.getElem?_eq_getElem hbl⟩
  have hmask : (dfMask s)[i]? = some (decide (o.time = c)) := by
    rw [dfMask, List.getElem?_zipWith, h, hc]
  rw [hmask]
  obtain ⟨hall, j0, hj0, hj0v⟩ :=
    cummin_getElem? (s.map Obs.time) i c (by rw [← bestTimes]; exact hc)
  constructor
  · intro htrue j o' hji hjo
    have heq : o.time = c := of_decide_eq_true (Option.some.inj htrue)
    rw [heq]
    exact hall j o'.time (le_of_lt hji) (getElem?_map_time s j o' hjo)
  · intro hrec
    have h1 : c ≤ o.time := hall i o.time (le_refl i) (getElem?_map_time s i o h)
    have h2 : o.time ≤ c := by
      rw [List.getElem?_map] at hj0v
      obtain ⟨o'', ho'', ho''t⟩ := Option.map_eq_some'.mp hj0v
      rcases Nat.lt_or_ge j0 i with hji | hge
      · rw [← ho''t]
        exact hrec j0 o'' hji ho''
      · have hj0i : j0 = i := le_antisymm hj0 hge
        subst hj0i
        rw [h] at ho''
        rw [← ho''t, ← Option.some.inj ho'']
    have heq : o.time = c := le_antisymm h2 h1
    rw [heq]
    simp

theorem ptsMask_true_iff (s : List Obs) (i : ℕ) (o : Obs) (h : s[i]? = some o) :
    ((ptsMask s)[i]? = some true ↔
      (i = 0 ∨ ∀ j o', j < i → s[j]? = some o' → o.time < o'.time)) := by
  cases s with
  | nil => simp at h
  | cons o0 os =>
    cases i with
    | zero =>
      constructor
      · intro _
        exact Or.inl rfl
      · intro _
        rw [ptsMask_cons, List.getElem?_cons_zero]
    | succ i =>
      have hlt : i + 1 < (o0 :: os).length := (List.getElem?_eq_some_iff.mp h).1
      have hbl : i < (bestTimes (o0 :: os)).length := by
        rw [bestTimes_length]
        omega
      obtain ⟨prev, hprev⟩ : ∃ prev, (bestTimes (o0 :: os))[i]? = some prev :=
        ⟨(bestTimes (o0 :: os))[i], List.getElem?_eq_getElem hbl⟩
      have hcur : (bestTimes (o0 :: os))[i + 1]? = some (min prev o.time) := by
        rw [bestTimes]
        exact cummin_succ ((o0 :: os).map Obs.time) i prev o.time
          (by rw [← bestTimes]; exact hprev) (getElem?_map_time (o0 :: os) (i + 1) o h)
      have hmask : (ptsMask (o0 :: os))[i + 1]? = some (decide (min prev o.time ≠ prev)) := by
        rw [ptsMask_cons, List.getElem?_cons_succ, List.getElem?_zipWith]
        have h1 : (o0.time :: cumminAux o0.time (os.map Obs.time))[i]? = some prev := by
          rw [← bestTimes_cons]
          exact hprev
        have h2 : (cumminAux o0.time (os.map Obs.time))[i]? = some (min prev o.time) := by
          have h3 := hcur
          rw [bestTimes_cons, List.getElem?_cons_succ] at h3
          exact h3
        rw [h1, h2]
      rw [hmask]
      have hne_iff : (min prev o.time ≠ prev) ↔ o.time < prev := by
        constructor
        · intro hne
          by_contra hge
          push_neg at hge
          exact hne (min_eq_left hge)
        · intro hlt'
          rw [min_eq_right (le_of_lt hlt')]
          exact ne_of_lt hlt'
      obtain ⟨hall, j0, hj0, hj0v⟩ :=
        cummin_getElem? ((o0 :: os).map Obs.time) i prev (by rw [← bestTimes]; exact hprev)
      constructor
      · intro htrue
        right
        intro j o' hji hjo
        have hne : min prev o.time ≠ prev := of_decide_eq_true (Option.some.inj htrue)
        have hlt' : o.time < prev := hne_iff.mp hne
        exact lt_of_lt_of_le hlt'
          (hall j o'.time (by omega) (getElem?_map_time (o0 :: os) j o' hjo))
      · rintro (hzero | hrec)
        · exact absurd hzero (Nat.succ_ne_zero i)
        · rw [List.getElem?_map] at hj0v
          obtain ⟨o'', ho'', ho''t⟩ := Option.map_eq_some'.mp hj0v
          have hlt' : o.time < prev := by
            rw [← ho''t]
            exact hrec j0 o'' (by omega) ho''
          simp [hne_iff.mpr hlt']

/-- C1 (amended as the counterexample forces): an observation is a
record_df row — a segment anchor — exactly when its time is less than
or equal to every earlier time of its track series (the running best at
its position, ties included); but the chart markers and the table rows
come from record_points, which includes an observation exactly when it
is the first of the series or its time is STRICTLY below every earlier
time, so ties are suppressed there.  In the Luigi Raceway scenario the
segment anchors are all four observations while the markers and table
rows are only three, excluding the 1:28.50 tie. -/
theorem c1_record_rule_amended (s : List Obs) (i : ℕ) (o : Obs) (h : s[i]? = some o) :
    ((dfMask s)[i]? = some true ↔ ∀ j o', j < i → s[j]? = some o' → o.time ≤ o'.time) ∧
    ((ptsMask s)[i]? = some true ↔
      (i = 0 ∨ ∀ j o', j < i → s[j]? = some o' → o.time < o'.time)) ∧
    record_df luigi = luigi ∧
    record_points luigi = [⟨1, "A", 90⟩, ⟨3, "B", 177/2⟩, ⟨6, "C", 85⟩] :=
  ⟨dfMask_true_iff s i o h, ptsMask_true_iff s i o h,
    by with_unfolding_all decide, by with_unfolding_all decide⟩

/-- Witness for C1 (amended) at the first Luigi Raceway observation. -/
theorem c1_record_rule_witness :
    luigi[0]? = some ⟨1, "A", 90⟩ ∧
    (((dfMask luigi)[0]? = some true ↔
        ∀ j o', j < 0 → luigi[j]? = some o' → (⟨1, "A", 90⟩ : Obs).time ≤ o'.time) ∧
      ((ptsMask luigi)[0]? = some true ↔
        (0 = 0 ∨ ∀ j o', j < 0 → luigi[j]? = some o' → (⟨1, "A", 90⟩ : Obs).time < o'.time)) ∧
      record_df luigi = luigi ∧
      record_points luigi = [⟨1, "A", 90⟩, ⟨3, "B", 177/2⟩, ⟨6, "C", 85⟩]) :=
  ⟨by with_unfolding_all decide,
    c1_record_rule_amended luigi 0 ⟨1, "A", 90⟩ (by with_unfolding_all decide)⟩

/-- C1 is false as stated: in the Luigi Raceway scenario the tied
observation (01-05-24, A, 1:28.50) has time equal to — hence `<=` —
the running best at its position and is a segment anchor
(a record_df row), yet it is not a record event in the chart-marker and
table representation: record_points excludes it (its `diff()` is 0). -/
theorem c1_counterexample :
    luigi[2]? = some ⟨5, "A", 177/2⟩ ∧
    (bestTimes luigi)[2]? = some (177/2) ∧
    (⟨5, "A", 177/2⟩ : Obs).time ≤ 177/2 ∧
    (⟨5, "A", 177/2⟩ : Obs) ∈ record_df luigi ∧
    (⟨5, "A", 177/2⟩ : Obs) ∉ record_points luigi ∧
    (ptsMask luigi)[2]? = some false := by
  refine ⟨?_, ?_, ?_, ?_, ?_, ?_⟩ <;> with_unfolding_all decide

theorem min_ne_left_iff (b t : ℚ) : (min b t ≠ b) ↔ t < b := by
  constructor
  · intro hne
    by_contra hge
    push_neg at hge
    exact hne (min_eq_left hge)
  · intro hlt
    rw [min_eq_right (le_of_lt hlt)]
    exact ne_of_lt hlt

theorem maskFilter_cons {α : Type} (a : α) (l : List α) (b : Bool) (m : List Bool) :
    maskFilter (a :: l) (b :: m) = if b then a :: maskFilter l m else maskFilter l m := by
  cases b with
  | true => simp [maskFilter, List.filter_cons]
  | false => simp [maskFilter, List.filter_cons]

theorem recordPointsWithBest_aux (os : List Obs) : ∀ b : ℚ,
    maskFilter (os.zip (cumminAux b (os.map Obs.time)))
      (List.zipWith (fun prev cur => decide (cur ≠ prev))
        (b :: cumminAux b (os.map Obs.time)) (cumminAux b (os.map Obs.time))) = ptsAux b os := by
  induction os with
  | nil => intro b; rfl
  | cons o os ih =>
    intro b
    rw [show (o :: os).map Obs.time = o.time :: os.map Obs.time from rfl]
    rw [show cumminAux b (o.time :: os.map Obs.time) =
      min b o.time :: cumminAux (min b o.time) (os.map Obs.time) from rfl]
    rw [show (o :: os).zip (min b o.time :: cumminAux (min b o.time) (os.map Obs.time)) =
      (o, min b o.time) :: os.zip (cumminAux (min b o.time) (os.map Obs.time)) from rfl]
    rw [List.zipWith_cons_cons, maskFilter_cons, ih (min b o.time), ptsAux]
    simp only [decide_eq_true_eq, min_ne_left_iff]

theorem recordPointsWithBest_nil : recordPointsWithBest [] = [] := rfl

theorem recordPointsWithBest_cons (o : Obs) (os : List Obs) :
    recordPointsWithBest (o :: os) = (o, o.time) :: ptsAux o.time os := by
  rw [recordPointsWithBest, ptsMask_cons, bestTimes_cons]
  rw [show (o :: os).zip (o.time :: cumminAux o.time (os.map Obs.time)) =
    (o, o.time) :: os.zip (cumminAux o.time (os.map Obs.time)) from rfl]
  rw [maskFilter_cons, if_pos rfl, recordPointsWithBest_aux os o.time]

theorem ptsAux_bests (os : List Obs) : ∀ b : ℚ,
    (∀ p ∈ ptsAux b os, p.2 < b) ∧
      List.Pairwise (fun p q => q.2 < p.2) (ptsAux b os) := by
  induction os with
  | nil => intro b; exact ⟨by simp [ptsAux], by simp [ptsAux]⟩
  | cons o os ih =>
    intro b
    rw [ptsAux]
    obtain ⟨hall, hpw⟩ := ih (min b o.time)
    by_cases holt : o.time < b
    · rw [if_pos holt]
      have hmin : min b o.time = o.time := min_eq_right (le_of_lt holt)
      constructor
      · intro p hp
        rcases List.mem_cons.mp hp with rfl | hp
        · simpa [hmin] using holt
        · exact lt_trans (hall p hp) (by rw [hmin]; exact holt)
      · refine List.pairwise_cons.mpr ⟨?_, hpw⟩
        intro q hq
        simpa [hmin] using hall q hq
    · rw [if_neg holt]
      refine ⟨?_, hpw⟩
      intro p hp
      exact lt_of_lt_of_le (hall p hp) (min_le_left b o.time)

theorem recordPointsWithBest_strict (s : List Obs) :
    List.Pairwise (fun p q => q.2 < p.2) (recordPointsWithBest s) := by
  cases s with
  | nil => rw [recordPointsWithBest_nil]; exact List.Pairwise.nil
  | cons o os =>
    rw [recordPointsWithBest_cons]
    obtain ⟨hall, hpw⟩ := ptsAux_bests os o.time
    exact List.pairwise_cons.mpr ⟨fun q hq => hall q hq, hpw⟩

theorem orderedInsert_append_last (r : Obs × ℚ → Obs × ℚ → Prop) [DecidableRel r]
    (a : Obs × ℚ) : ∀ l : List (Obs × ℚ), (∀ y ∈ l, ¬ r a y) →
      List.orderedInsert r a l = l ++ [a] := by
  intro l
  induction l with
  | nil => intro _; rfl
  | cons b l ih =>
    intro hall
    rw [List.orderedInsert, if_neg (hall b (List.mem_cons_self b l))]
    rw [ih (fun y hy => hall y (List.mem_cons_of_mem b hy))]
    rfl

theorem insertionSort_of_strict_desc (l : List (Obs × ℚ))
    (h : List.Pairwise (fun p q => q.2 < p.2) l) :
    l.insertionSort (fun p q => p.2 ≤ q.2) = l.reverse := by
  induction l with
  | nil => rfl
  | cons a l ih =>
    rw [List.insertionSort]
    obtain ⟨ha, hl⟩ := List.pairwise_cons.mp h
    rw [ih hl]
    rw [orderedInsert_append_last (fun p q => p.2 ≤ q.2) a l.reverse
      (fun y hy => not_le.mpr (ha y (List.mem_reverse.mp hy)))]
    rw [List.reverse_cons]

/-- C4 (amended as the counterexample forces): the auxiliary table
lists all record events (the record_points rows) sorted by time
ascending, but since the record times strictly DECREASE over
occurrence, that ascending order is the REVERSE of the chronological
order of occurrence (they coincide only when there is at most one
record event). -/
theorem c4_table_order_amended (s : List Obs) :
    table_df s = (recordPointsWithBest s).reverse ∧
    List.Pairwise (fun p q => p.2 ≤ q.2) (table_df s) ∧
    (table_df s).Perm (recordPointsWithBest s) := by
  have hrev : table_df s = (recordPointsWithBest s).reverse :=
    insertionSort_of_strict_desc _ (recordPointsWithBest_strict s)
  refine ⟨hrev, ?_, ?_⟩
  · rw [hrev, List.pairwise_reverse]
    exact (recordPointsWithBest_strict s).imp (fun hx => le_of_lt hx)
  · rw [hrev]
    exact List.reverse_perm _

/-- C4 is false as stated: in the Luigi Raceway scenario the table rows
sorted by time ascending are the record events in reverse chronological
order, not in the chronological order of occurrence. -/
theorem c4_counterexample :
    table_df luigi =
      [(⟨6, "C", 85⟩, 85), (⟨3, "B", 177/2⟩, 177/2), (⟨1, "A", 90⟩, 90)] ∧
    recordPointsWithBest luigi =
      [(⟨1, "A", 90⟩, 90), (⟨3, "B", 177/2⟩, 177/2), (⟨6, "C", 85⟩, 85)] ∧
    table_df luigi ≠ recordPointsWithBest luigi := by
  refine ⟨?_, ?_, ?_⟩ <;> with_unfolding_all decide

theorem everyOther_length {α : Type} : ∀ l : List α,
    (everyOther l).length = (l.length + 1) / 2
  | [] => by simp [everyOther]
  | [a] => by simp [everyOther]
  | a :: b :: rest => by
    rw [everyOther]
    simp only [List.length_cons]
    rw [everyOther_length rest]
    omega

theorem everyOther_getD {α : Type} (d : α) : ∀ (l : List α) (i : ℕ),
    (everyOther l).getD i d = l.getD (2 * i) d
  | [], i => by cases i <;> simp [everyOther]
  | [a], i => by
    cases i with
    | zero => simp [everyOther]
    | succ i =>
      rw [show 2 * (i + 1) = 2 * i + 1 + 1 from by omega]
      simp [everyOther, List.getD_cons_succ]
  | a :: b :: rest, i => by
    cases i with
    | zero => simp [everyOther]
    | succ i =>
      rw [show 2 * (i + 1) = 2 * i + 1 + 1 from by omega]
      rw [everyOther]
      simp only [List.getD_cons_succ]
      exact everyOther_getD d rest i

/-- C8: whenever the generated y-tick list has more than 12 entries,
the emitted tick value and label arrays are exactly the even-indexed
entries of the originals (`[::2]`), so each output array has length
`ceil(original / 2)`; the thinning is applied exactly once, to both
arrays at the same time. -/
theorem c8_tick_thinning (ymin ymax : ℚ) (h : 12 < (tickVals ymin ymax).length) :
    (yAxisTicks ymin ymax).1 = everyOther (tickVals ymin ymax) ∧
    (yAxisTicks ymin ymax).2 = everyOther ((tickVals ymin ymax).map seconds_to_mmsscc) ∧
    (yAxisTicks ymin ymax).1.length = ((tickVals ymin ymax).length + 1) / 2 ∧
    (yAxisTicks ymin ymax).2.length = ((tickVals ymin ymax).length + 1) / 2 ∧
    (∀ i : ℕ, (yAxisTicks ymin ymax).1.getD i 0 = (tickVals ymin ymax).getD (2 * i) 0) ∧
    (∀ i : ℕ, (yAxisTicks ymin ymax).2.getD i ("") =
      ((tickVals ymin ymax).map seconds_to_mmsscc).getD (2 * i) "") := by
  have hy : yAxisTicks ymin ymax =
      (everyOther (tickVals ymin ymax),
        everyOther ((tickVals ymin ymax).map seconds_to_mmsscc)) := by
    rw [yAxisTicks]
    simp only [if_pos h]
  rw [hy]
  refine ⟨rfl, rfl, everyOther_length _, ?_,
    fun i => everyOther_getD 0 _ i, fun i => everyOther_getD ("") _ i⟩
  rw [everyOther_length, List.length_map]

/-- Witness for C8 at the concrete range `[0, 20]` seconds, where 27
ticks are generated. -/
theorem c8_tick_thinning_witness :
    12 < (tickVals 0 20).length ∧
    ((yAxisTicks 0 20).1 = everyOther (tickVals 0 20) ∧
     (yAxisTicks 0 20).2 = everyOther ((tickVals 0 20).map seconds_to_mmsscc) ∧
     (yAxisTicks 0 20).1.length = ((tickVals 0 20).length + 1) / 2 ∧
     (yAxisTicks 0 20).2.length = ((tickVals 0 20).length + 1) / 2 ∧
     (∀ i : ℕ, (yAxisTicks 0 20).1.getD i 0 = (tickVals 0 20).getD (2 * i) 0) ∧
     (∀ i : ℕ, (yAxisTicks 0 20).2.getD i ("") =
       ((tickVals 0 20).map seconds_to_mmsscc).getD (2 * i) "")) :=
  ⟨by with_unfolding_all decide, c8_tick_thinning 0 20 (by with_unfolding_all decide)⟩

theorem mapM_parse_eq_none (r : RawRow) (hparse : mmsscc_to_seconds r.time = none) :
    ∀ rows : List RawRow, r ∈ rows →
      rows.mapM (fun r => (mmsscc_to_seconds r.time).map (fun q => (r, q))) = none := by
  intro rows
  induction rows with
  | nil => intro hr; simp at hr
  | cons a rows ih =>
    intro hr
    rw [List.mapM_cons]
    rcases List.mem_cons.mp hr with rfl | hr
    · rw [hparse]
      rfl
    · cases hfa : (mmsscc_to_seconds a.time).map (fun q => (a, q)) with
      | none => rfl
      | some p =>
        simp only [hfa, Option.bind_eq_bind, Option.some_bind, ih hr]
        rfl

/-- C7: if any loaded observation's Time string is malformed, the whole
run fails at the parsing stage (line 65), which runs before the
per-track loop: no HTML artifact is written for any track and no track
is skipped individually — the batch is all-or-nothing with respect to
a format error. -/
theorem c7_malformed_aborts (rows : List RawRow) (r : RawRow) (hr : r ∈ rows)
    (hparse : mmsscc_to_seconds r.time = none) :
    runBatch rows = ([], false) := by
  rw [runBatch, mapM_parse_eq_none r hparse rows hr]

/-- Witness for C7: a single row whose time string lacks the `"."`
separator aborts the batch with no files written. -/
theorem c7_malformed_aborts_witness :
    (⟨1, "A", "Luigi Raceway", "1:30"⟩ : RawRow) ∈
        [(⟨1, "A", "Luigi Raceway", "1:30"⟩ : RawRow)] ∧
    mmsscc_to_seconds ("1:30") = none ∧
    runBatch [⟨1, "A", "Luigi Raceway", "1:30"⟩] = ([], false) :=
  ⟨by with_unfolding_all decide, by with_unfolding_all decide,
    c7_malformed_aborts [⟨1, "A", "Luigi Raceway", "1:30"⟩] ⟨1, "A", "Luigi Raceway", "1:30"⟩
      (by with_unfolding_all decide) (by with_unfolding_all decide)⟩

theorem uniqueAux_mem (l : List String) : ∀ seen x, x ∈ uniqueAux seen l → x ∈ l ∧ x ∉ seen := by
  induction l with
  | nil => intro seen x hx; simp [uniqueAux] at hx
  | cons a l ih =>
    intro seen x hx
    rw [uniqueAux] at hx
    by_cases ha : a ∈ seen
    · rw [if_pos ha] at hx
      obtain ⟨h1, h2⟩ := ih seen x hx
      exact ⟨List.mem_cons_of_mem a h1, h2⟩
    · rw [if_neg ha] at hx
      rcases List.mem_cons.mp hx with rfl | hx
      · exact ⟨List.mem_cons_self x l, ha⟩
      · obtain ⟨h1, h2⟩ := ih (a :: seen) x hx
        exact ⟨List.mem_cons_of_mem a h1, fun hs => h2 (List.mem_cons_of_mem a hs)⟩

theorem uniqueAux_nodup (l : List String) : ∀ seen, (uniqueAux seen l).Nodup := by
  induction l with
  | nil => intro seen; simp [uniqueAux]
  | cons a l ih =>
    intro seen
    rw [uniqueAux]
    by_cases ha : a ∈ seen
    · rw [if_pos ha]
      exact ih seen
    · rw [if_neg ha]
      refine List.nodup_cons.mpr ⟨?_, ih (a :: seen)⟩
      intro hmem
      exact (uniqueAux_mem l (a :: seen) a hmem).2 (List.mem_cons_self a seen)

theorem uniquePlayers_nodup (s : List Obs) : (uniquePlayers s).Nodup :=
  uniqueAux_nodup (s.map Obs.player) []

theorem lookup_cons_self (a c : String) (l : List (String × String)) :
    List.lookup a ((a, c) :: l) = some c := by
  simp [List.lookup]

theorem lookup_cons_ne (p a c : String) (l : List (String × String)) (h : p ≠ a) :
    List.lookup p ((a, c) :: l) = List.lookup p l := by
  rw [List.lookup, show (p == a) = false from beq_eq_false_iff_ne.mpr h]

theorem lookup_zip_mem : ∀ (l1 l2 : List String), l1.length ≤ l2.length →
    ∀ p ∈ l1, ∃ c, (l1.zip l2).lookup p = some c := by
  intro l1
  induction l1 with
  | nil => intro l2 hlen p hp; simp at hp
  | cons a l1 ih =>
    intro l2 hlen p hp
    cases l2 with
    | nil => simp at hlen
    | cons b l2 =>
      rw [List.zip_cons_cons]
      by_cases hpa : p = a
      · subst hpa
        exact ⟨b, lookup_cons_self p b _⟩
      · have hp' : p ∈ l1 := by
          rcases List.mem_cons.mp hp with rfl | hp'
          · exact absurd rfl hpa
          · exact hp'
        obtain ⟨c, hc⟩ := ih l2 (by simpa using hlen) p hp'
        refine ⟨c, ?_⟩
        rw [lookup_cons_ne p a b _ hpa]
        exact hc

theorem lookup_zip_value_mem : ∀ (l1 l2 : List String) (p c : String),
    (l1.zip l2).lookup p = some c → c ∈ l2 := by
  intro l1
  induction l1 with
  | nil => intro l2 p c h; simp [List.lookup] at h
  | cons a l1 ih =>
    intro l2 p c h
    cases l2 with
    | nil => simp [List.lookup] at h
    | cons b l2 =>
      rw [List.zip_cons_cons] at h
      by_cases hpa : p = a
      · subst hpa
        rw [lookup_cons_self p b _] at h
        rw [← Option.some.inj h]
        exact List.mem_cons_self b l2
      · rw [lookup_cons_ne p a b _ hpa] at h
        exact List.mem_cons_of_mem b (ih l2 p c h)

theorem lookup_zip_inj : ∀ (l1 l2 : List String), l1.Nodup → l2.Nodup →
    ∀ p₁ p₂ c, (l1.zip l2).lookup p₁ = some c → (l1.zip l2).lookup p₂ = some c →
      p₁ = p₂ := by
  intro l1
  induction l1 with
  | nil => intro l2 h1 h2 p₁ p₂ c h; simp [List.lookup] at h
  | cons a l1 ih =>
    intro l2 hn1 hn2 p₁ p₂ c h₁ h₂
    cases l2 with
    | nil => simp [List.lookup] at h₁
    | cons b l2 =>
      rw [List.zip_cons_cons] at h₁ h₂
      obtain ⟨hb_not, hn2'⟩ := List.nodup_cons.mp hn2
      obtain ⟨ha_not, hn1'⟩ := List.nodup_cons.mp hn1
      by_cases hp₁ : p₁ = a <;> by_cases hp₂ : p₂ = a
      · rw [hp₁, hp₂]
      · rw [hp₁, lookup_cons_self a b] at h₁
        rw [lookup_cons_ne p₂ a b _ hp₂] at h₂
        have hc : c ∈ l2 := lookup_zip_value_mem l1 l2 p₂ c h₂
        rw [← Option.some.inj h₁] at hc
        exact absurd hc hb_not
      · rw [hp₂, lookup_cons_self a b] at h₂
        rw [lookup_cons_ne p₁ a b _ hp₁] at h₁
        have hc : c ∈ l2 := lookup_zip_value_mem l1 l2 p₁ c h₁
        rw [← Option.some.inj h₂] at hc
        exact absurd hc hb_not
      · rw [lookup_cons_ne p₁ a b _ hp₁] at h₁
        rw [lookup_cons_ne p₂ a b _ hp₂] at h₂
        exact ih l2 hn1' hn2' p₁ p₂ c h₁ h₂

/-- C9: the per-track colour mapping zips the track's unique players
with the fixed 24-colour palette.  For every track with at most 24
unique players every player gets a colour and no two players share one
(the mapping is a single stable dict per track); but for a track with
25 unique players whose 25th first-seen player holds a record, the
lookup `color_map[holder]` finds no key, the per-track loop raises, and
no artifact is produced for that track. -/
theorem c9_color_map (s : List Obs) (h24 : (uniquePlayers s).length ≤ 24) :
    ((∀ p ∈ uniquePlayers s, ∃ c, (color_map s).lookup p = some c) ∧
      (∀ p₁ p₂ c, (color_map s).lookup p₁ = some c →
        (color_map s).lookup p₂ = some c → p₁ = p₂)) ∧
    ((uniquePlayers manyObs).length = 25 ∧
      (color_map manyObs).lookup ("P25") = none ∧
      (⟨25, "P25", 95⟩ : Obs) ∈ record_df manyObs ∧
      renderTrack manyObs = none ∧
      runBatch manyRows = ([], false)) := by
  refine ⟨⟨?_, ?_⟩, ?_, ?_, ?_, ?_, ?_⟩
  · intro p hp
    exact lookup_zip_mem (uniquePlayers s) palette
      (le_trans h24 (by with_unfolding_all decide)) p hp
  · intro p₁ p₂ c h₁ h₂
    exact lookup_zip_inj (uniquePlayers s) palette (uniquePlayers_nodup s)
      (by with_unfolding_all decide) p₁ p₂ c h₁ h₂
  · with_unfolding_all decide
  · with_unfolding_all decide
  · with_unfolding_all decide
  · with_unfolding_all decide
  · with_unfolding_all decide

/-- Witness for C9 on the Luigi Raceway series (3 unique players). -/
theorem c9_color_map_witness :
    (uniquePlayers luigi).length ≤ 24 ∧
    ((color_map luigi).lookup ("A")).isSome = true := by
  refine ⟨by with_unfolding_all decide, ?_⟩
  obtain ⟨c, hc⟩ := (c9_color_map luigi (by with_unfolding_all decide)).1.1 ("A")
    (by with_unfolding_all decide)
  rw [hc]
  rfl

theorem trueIdxsFrom_mem (m : List Bool) : ∀ k p, p ∈ trueIdxsFrom k m →
    k ≤ p ∧ p < k + m.length := by
  induction m with
  | nil => intro k p hp; simp [trueIdxsFrom] at hp
  | cons b m ih =>
    intro k p hp
    rw [trueIdxsFrom] at hp
    by_cases hb : b = true
    · rw [if_pos hb] at hp
      rcases List.mem_cons.mp hp with rfl | hp
      · simp
      · have := ih (k + 1) p hp
        simp only [List.length_cons]
        omega
    · rw [if_neg hb] at hp
      have := ih (k + 1) p hp
      simp only [List.length_cons]
      omega

theorem trueIdxsFrom_sorted (m : List Bool) : ∀ k,
    List.Pairwise (· < ·) (trueIdxsFrom k m) := by
  induction m with
  | nil => intro k; simp [trueIdxsFrom]
  | cons b m ih =>
    intro k
    rw [trueIdxsFrom]
    by_cases hb : b = true
    · rw [if_pos hb]
      refine List.pairwise_cons.mpr ⟨?_, ih (k + 1)⟩
      intro p hp
      have := trueIdxsFrom_mem m (k + 1) p hp
      omega
    · rw [if_neg hb]
      exact ih (k + 1)

theorem trueIdxsFrom_mask (m : List Bool) : ∀ k p, p ∈ trueIdxsFrom k m →
    m[p - k]? = some true := by
  induction m with
  | nil => intro k p hp; simp [trueIdxsFrom] at hp
  | cons b m ih =>
    intro k p hp
    rw [trueIdxsFrom] at hp
    by_cases hb : b = true
    · rw [if_pos hb] at hp
      rcases List.mem_cons.mp hp with rfl | hp
      · simp [hb]
      · have hk := (trueIdxsFrom_mem m (k + 1) p hp).1
        rw [show p - k = (p - (k + 1)) + 1 from by omega, List.getElem?_cons_succ]
        exact ih (k + 1) p hp
    · rw [if_neg hb] at hp
      have hk := (trueIdxsFrom_mem m (k + 1) p hp).1
      rw [show p - k = (p - (k + 1)) + 1 from by omega, List.getElem?_cons_succ]
      exact ih (k + 1) p hp

theorem dfMask_length (s : List Obs) : (dfMask s).length = s.length := by
  rw [dfMask, List.length_zipWith, bestTimes_length]
  omega

theorem dfMask_cons (o : Obs) (os : List Obs) :
    dfMask (o :: os) =
      true :: List.zipWith (fun o b => decide (o.time = b)) os
        (cumminAux o.time (os.map Obs.time)) := by
  rw [dfMask, bestTimes_cons, List.zipWith_cons_cons]
  simp

theorem recordIdxs_cons (o : Obs) (os : List Obs) :
    recordIdxs (o :: os) =
      0 :: trueIdxsFrom 1 (List.zipWith (fun o b => decide (o.time = b)) os
        (cumminAux o.time (os.map Obs.time))) := by
  rw [recordIdxs, dfMask_cons, trueIdxsFrom, if_pos rfl]

theorem recordIdxs_sorted (s : List Obs) : List.Pairwise (· < ·) (recordIdxs s) :=
  trueIdxsFrom_sorted (dfMask s) 0

theorem recordIdxs_lt_length (s : List Obs) : ∀ p ∈ recordIdxs s, p < s.length := by
  intro p hp
  have := trueIdxsFrom_mem (dfMask s) 0 p hp
  rw [dfMask_length] at this
  omega

theorem mem_range'_iff (a len j : ℕ) : j ∈ List.range' a len ↔ a ≤ j ∧ j < a + len := by
  rw [List.mem_range']
  constructor
  · rintro ⟨i, hi, rfl⟩
    omega
  · intro ⟨h1, h2⟩
    exact ⟨j - a, by omega, by omega⟩

theorem count_range' (a len j : ℕ) :
    (List.range' a len).count j = if a ≤ j ∧ j < a + len then 1 else 0 := by
  by_cases h : a ≤ j ∧ j < a + len
  · rw [if_pos h]
    exact List.count_eq_one_of_mem (List.nodup_range' a len)
      ((mem_range'_iff a len j).mpr h)
  · rw [if_neg h]
    exact List.count_eq_zero_of_not_mem (fun hm => h ((mem_range'_iff a len j).mp hm))

theorem segPositions_count (a b j : ℕ) (hab : a ≤ b) :
    (segPositions (a, b)).count j = if a ≤ j ∧ j ≤ b then 1 else 0 := by
  rw [segPositions, count_range']
  have hiff : (a ≤ j ∧ j < a + (b + 1 - a)) ↔ (a ≤ j ∧ j ≤ b) := by omega
  rw [if_congr hiff rfl rfl]

theorem segBounds_count (n : ℕ) : ∀ (rest : List ℕ) (r : ℕ),
    List.Pairwise (· < ·) (r :: rest) → (∀ x ∈ r :: rest, x ≤ n - 1) → ∀ j : ℕ,
    ((segBounds n (r :: rest)).flatMap segPositions).count j =
      if r ≤ j ∧ j ≤ n - 1 then (if j ∈ rest then 2 else 1) else 0 := by
  intro rest
  induction rest with
  | nil =>
    intro r hsort hbound j
    have hrn : r ≤ n - 1 := hbound r (List.mem_cons_self r [])
    rw [show segBounds n [r] = [(r, n - 1)] from by simp [segBounds]]
    rw [List.flatMap_cons]
    simp only [List.flatMap_nil, List.append_nil]
    rw [segPositions_count r (n - 1) j hrn]
    simp [List.not_mem_nil]
  | cons r' rest' ih =>
    intro r hsort hbound j
    have hrr' : r < r' := (List.pairwise_cons.mp hsort).1 r' (List.mem_cons_self r' rest')
    have hsort' : List.Pairwise (· < ·) (r' :: rest') := (List.pairwise_cons.mp hsort).2
    have hr'max : ∀ x ∈ rest', r' < x := (List.pairwise_cons.mp hsort').1
    have hbound' : ∀ x ∈ r' :: rest', x ≤ n - 1 :=
      fun x hx => hbound x (List.mem_cons_of_mem r hx)
    have hr'n : r' ≤ n - 1 := hbound' r' (List.mem_cons_self r' rest')
    rw [show segBounds n (r :: r' :: rest') = (r, r') :: segBounds n (r' :: rest') from by
      simp [segBounds]]
    rw [List.flatMap_cons, List.count_append, ih r' hsort' hbound' j]
    rw [segPositions_count r r' j (le_of_lt hrr')]
    rcases Decidable.em (j ∈ rest') with hjrest | hjrest
    · rcases Decidable.em (j = r') with hjr' | hjr'
      · exact absurd (hjr' ▸ hr'max j hjrest) (lt_irrefl r')
      · have hj_gt : r' < j := hr'max j hjrest
        rw [if_pos hjrest, if_pos (List.mem_cons_of_mem r' hjrest)]
        split_ifs <;> omega
    · rcases Decidable.em (j = r') with hjr' | hjr'
      · subst hjr'
        rw [if_neg hjrest, if_pos (List.mem_cons_self j rest')]
        split_ifs <;> omega
      · have hnotmem : j ∉ r' :: rest' := by
          simp [List.mem_cons, hjr', hjrest]
        rw [if_neg hjrest, if_neg hnotmem]
        split_ifs <;> omega

theorem concatPositions_count (s : List Obs) (hne : s ≠ []) (j : ℕ) :
    (concatPositions s).count j =
      if j < s.length then (if j ∈ (recordIdxs s).tail then 2 else 1) else 0 := by
  match s, hne with
  | o :: os, _ =>
    have hshape := recordIdxs_cons o os
    have hsort : List.Pairwise (· < ·) (recordIdxs (o :: os)) := recordIdxs_sorted (o :: os)
    have hbound : ∀ x ∈ recordIdxs (o :: os), x ≤ (o :: os).length - 1 := by
      intro x hx
      have := recordIdxs_lt_length (o :: os) x hx
      omega
    rw [hshape] at hsort hbound
    rw [concatPositions, hshape]
    rw [segBounds_count (o :: os).length _ 0 hsort hbound j]
    have hiff : ((0 : ℕ) ≤ j ∧ j ≤ (o :: os).length - 1) ↔ j < (o :: os).length := by
      simp only [List.length_cons]
      omega
    rw [if_congr hiff rfl rfl]
    simp only [List.tail_cons]

theorem maskFilter_length_eq {α : Type} : ∀ (m : List Bool) (l : List α) (k : ℕ),
    l.length = m.length → (maskFilter l m).length = (trueIdxsFrom k m).length := by
  intro m
  induction m with
  | nil =>
    intro l k h
    cases l with
    | nil => rfl
    | cons a l => simp at h
  | cons b m ih =>
    intro l k h
    cases l with
    | nil => simp at h
    | cons a l =>
      simp only [List.length_cons] at h
      rw [maskFilter_cons, trueIdxsFrom]
      cases b with
      | true =>
        rw [if_pos rfl, if_pos rfl]
        simp only [List.length_cons]
        rw [ih l (k + 1) (by omega)]
      | false =>
        rw [if_neg (by simp), if_neg (by simp)]
        exact ih l (k + 1) (by omega)

theorem maskFilter_getElem? {α : Type} : ∀ (m : List Bool) (l : List α) (k i : ℕ),
    l.length = m.length →
      (maskFilter l m)[i]? =
        ((trueIdxsFrom k m)[i]?).bind (fun p => l[p - k]?) := by
  intro m
  induction m with
  | nil =>
    intro l k i h
    cases l with
    | nil => simp [maskFilter, trueIdxsFrom]
    | cons a l => simp at h
  | cons b m ih =>
    intro l k i h
    cases l with
    | nil => simp at h
    | cons a l =>
      simp only [List.length_cons] at h
      rw [maskFilter_cons, trueIdxsFrom]
      cases b with
      | true =>
        rw [if_pos rfl, if_pos rfl]
        cases i with
        | zero =>
          rw [List.getElem?_cons_zero, List.getElem?_cons_zero]
          simp
        | succ i =>
          rw [List.getElem?_cons_succ, List.getElem?_cons_succ]
          rw [ih l (k + 1) i (by omega)]
          cases hp : (trueIdxsFrom (k + 1) m)[i]? with
          | none => rfl
          | some p =>
            have hpk : k + 1 ≤ p :=
              (trueIdxsFrom_mem m (k + 1) p (List.getElem?_mem hp)).1
            show l[p - (k + 1)]? = (a :: l)[p - k]?
            rw [show p - k = (p - (k + 1)) + 1 from by omega, List.getElem?_cons_succ]
      | false =>
        rw [if_neg (by simp), if_neg (by simp)]
        rw [ih l (k + 1) i (by omega)]
        cases hp : (trueIdxsFrom (k + 1) m)[i]? with
        | none => rfl
        | some p =>
          have hpk : k + 1 ≤ p :=
            (trueIdxsFrom_mem m (k + 1) p (List.getElem?_mem hp)).1
          show l[p - (k + 1)]? = (a :: l)[p - k]?
          rw [show p - k = (p - (k + 1)) + 1 from by omega, List.getElem?_cons_succ]

theorem segBounds_length (n : ℕ) : ∀ idxs : List ℕ, (segBounds n idxs).length = idxs.length
  | [] => by simp [segBounds]
  | [r] => by simp [segBounds]
  | r :: r' :: rest => by
    rw [show segBounds n (r :: r' :: rest) = (r, r') :: segBounds n (r' :: rest) from by
      simp [segBounds]]
    simp only [List.length_cons]
    rw [segBounds_length n (r' :: rest)]
    simp

theorem segBounds_getElem?_fst (n : ℕ) : ∀ (idxs : List ℕ) (i : ℕ),
    ((segBounds n idxs)[i]?).map Prod.fst = idxs[i]?
  | [], i => by simp [segBounds]
  | [r], i => by
    rw [show segBounds n [r] = [(r, n - 1)] from by simp [segBounds]]
    cases i with
    | zero => simp
    | succ i => simp
  | r :: r' :: rest, i => by
    rw [show segBounds n (r :: r' :: rest) = (r, r') :: segBounds n (r' :: rest) from by
      simp [segBounds]]
    cases i with
    | zero => simp
    | succ i =>
      rw [List.getElem?_cons_succ, List.getElem?_cons_succ]
      exact segBounds_getElem?_fst n (r' :: rest) i

theorem segBounds_mem_fst (n : ℕ) : ∀ (idxs : List ℕ) (a b : ℕ),
    (a, b) ∈ segBounds n idxs → a ∈ idxs
  | [], a, b => by simp [segBounds]
  | [r], a, b => by
    rw [show segBounds n [r] = [(r, n - 1)] from by simp [segBounds]]
    intro h
    have := List.mem_singleton.mp h
    have ha : a = r := by
      have := congrArg Prod.fst this
      simpa using this
    rw [ha]
    exact List.mem_cons_self r []
  | r :: r' :: rest, a, b => by
    rw [show segBounds n (r :: r' :: rest) = (r, r') :: segBounds n (r' :: rest) from by
      simp [segBounds]]
    intro h
    rcases List.mem_cons.mp h with heq | htail
    · have ha : a = r := by
        have := congrArg Prod.fst heq
        simpa using this
      rw [ha]
      exact List.mem_cons_self r (r' :: rest)
    · exact List.mem_cons_of_mem r (segBounds_mem_fst n (r' :: rest) a b htail)

theorem segBounds_no_between (n : ℕ) : ∀ (idxs : List ℕ),
    List.Pairwise (· < ·) idxs → ∀ a b, (a, b) ∈ segBounds n idxs →
      ∀ p ∈ idxs, ¬(a < p ∧ p < b)
  | [], _, a, b => by simp [segBounds]
  | [r], hs, a, b => by
    rw [show segBounds n [r] = [(r, n - 1)] from by simp [segBounds]]
    intro h p hp hcontra
    have heq := List.mem_singleton.mp h
    have ha : a = r := by
      have := congrArg Prod.fst heq
      simpa using this
    rcases List.mem_singleton.mp hp with rfl
    rw [ha] at hcontra
    exact absurd hcontra.1 (lt_irrefl p)
  | r :: r' :: rest, hs, a, b => by
    rw [show segBounds n (r :: r' :: rest) = (r, r') :: segBounds n (r' :: rest) from by
      simp [segBounds]]
    intro h p hp hcontra
    have hrr' : r < r' := (List.pairwise_cons.mp hs).1 r' (List.mem_cons_self r' rest)
    have hs' : List.Pairwise (· < ·) (r' :: rest) := (List.pairwise_cons.mp hs).2
    rcases List.mem_cons.mp h with heq | htail
    · have ha : a = r := by
        have := congrArg Prod.fst heq
        simpa using this
      have hb : b = r' := by
        have := congrArg Prod.snd heq
        simpa using this
      subst ha
      subst hb
      rcases List.mem_cons.mp hp with rfl | hp'
      · exact absurd hcontra.1 (lt_irrefl p)
      · rcases List.mem_cons.mp hp' with rfl | hp''
        · exact absurd hcontra.2 (lt_irrefl p)
        · have hgt : b < p := (List.pairwise_cons.mp hs').1 p hp''
          exact absurd hcontra.2 (not_lt.mpr (le_of_lt hgt))
    · have ha_mem : a ∈ r' :: rest := segBounds_mem_fst n (r' :: rest) a b htail
      rcases List.mem_cons.mp hp with rfl | hp'
      · have hra : p < a := by
          rcases List.mem_cons.mp ha_mem with rfl | ha''
          · exact hrr'
          · exact lt_trans hrr' ((List.pairwise_cons.mp hs').1 a ha'')
        exact absurd hcontra.1 (not_lt.mpr (le_of_lt hra))
      · exact segBounds_no_between n (r' :: rest) hs' a b htail p hp' hcontra

theorem record_df_length_eq (s : List Obs) :
    (record_df s).length = (recordIdxs s).length :=
  maskFilter_length_eq (dfMask s) s 0 (dfMask_length s).symm

theorem record_df_getElem? (s : List Obs) (i : ℕ) :
    (record_df s)[i]? = ((recordIdxs s)[i]?).bind (fun p => s[p]?) := by
  rw [record_df, maskFilter_getElem? (dfMask s) s 0 i (dfMask_length s).symm, recordIdxs]
  simp only [Nat.sub_zero]

/-- C3 (amended as the counterexample forces): for every non-empty
track series the display segments' concatenated positions cover the
series with no gaps, but they are NOT overlap-free: every record
position other than the first is the shared endpoint of two consecutive
segments and so is drawn exactly twice, every other position exactly
once (the standard step-chart hand-off).  Each segment is attributed to
the player of the record event at its start position, and no record
event lies strictly inside a segment. -/
theorem c3_segments_amended (s : List Obs) (hne : s ≠ []) :
    (∀ j, j < s.length → (concatPositions s).count j =
      if j ∈ (recordIdxs s).tail then 2 else 1) ∧
    (∀ j, s.length ≤ j → (concatPositions s).count j = 0) ∧
    (segments s).map Prod.fst = (record_df s).map Obs.player ∧
    (∀ (i : ℕ) (hd : String) (a b : ℕ), (segments s)[i]? = some (hd, a, b) →
      (recordIdxs s)[i]? = some a ∧
      (∃ o, s[a]? = some o ∧ o.player = hd ∧ (dfMask s)[a]? = some true) ∧
      (∀ p, p ∈ recordIdxs s → ¬(a < p ∧ p < b))) := by
  refine ⟨?_, ?_, ?_, ?_⟩
  · intro j hj
    rw [concatPositions_count s hne j, if_pos hj]
  · intro j hj
    rw [concatPositions_count s hne j, if_neg (by omega)]
  · rw [segments, List.map_fst_zip]
    rw [List.length_map, record_df_length_eq, segBounds_length]
  · intro i hd a b hseg
    rw [segments] at hseg
    obtain ⟨hplayer, hbounds⟩ := List.getElem?_zip_eq_some.mp hseg
    have hidx : (recordIdxs s)[i]? = some a := by
      have := segBounds_getElem?_fst s.length (recordIdxs s) i
      rw [hbounds] at this
      simpa using this.symm
    have hmem_a : a ∈ recordIdxs s := List.getElem?_mem hidx
    refine ⟨hidx, ?_, ?_⟩
    · have hdf : (record_df s)[i]? = s[a]? := by
        rw [record_df_getElem? s i, hidx]
        rfl
      rw [List.getElem?_map] at hplayer
      obtain ⟨o, ho, hop⟩ := Option.map_eq_some'.mp hplayer
      refine ⟨o, by rw [← hdf]; exact ho, hop, ?_⟩
      have := trueIdxsFrom_mask (dfMask s) 0 a hmem_a
      simpa using this
    · exact segBounds_no_between s.length (recordIdxs s) (recordIdxs_sorted s) a b
        (List.getElem?_mem hbounds)

/-- Witness for C3 (amended) on the Luigi Raceway series. -/
theorem c3_segments_witness :
    luigi ≠ [] ∧
    ((∀ j, j < luigi.length → (concatPositions luigi).count j =
        if j ∈ (recordIdxs luigi).tail then 2 else 1) ∧
      (∀ j, luigi.length ≤ j → (concatPositions luigi).count j = 0) ∧
      (segments luigi).map Prod.fst = (record_df luigi).map Obs.player ∧
      (∀ (i : ℕ) (hd : String) (a b : ℕ), (segments luigi)[i]? = some (hd, a, b) →
        (recordIdxs luigi)[i]? = some a ∧
        (∃ o, luigi[a]? = some o ∧ o.player = hd ∧ (dfMask luigi)[a]? = some true) ∧
        (∀ p, p ∈ recordIdxs luigi → ¬(a < p ∧ p < b)))) :=
  ⟨by with_unfolding_all decide, c3_segments_amended luigi (by with_unfolding_all decide)⟩

/-- C3 is false as stated: in the two-observation series
[(day 1, A, 90 s), (day 2, B, 85 s)] both observations are record
events, the two segments cover positions 0..1 and 1..1, and position 1
is drawn by both segments — the concatenated positions [0, 1, 1]
overlap at the second record's position. -/
theorem c3_counterexample :
    concatPositions [⟨1, "A", 90⟩, ⟨2, "B", 85⟩] = [0, 1, 1] ∧
    (concatPositions [⟨1, "A", 90⟩, ⟨2, "B", 85⟩]).count 1 = 2 ∧
    segments [⟨1, "A", 90⟩, ⟨2, "B", 85⟩] = [("A", 0, 1), ("B", 1, 1)] := by
  refine ⟨?_, ?_, ?_⟩ <;> with_unfolding_all decide
